import Mathlib

/-!
# Verification of `src/devices/unknown1.c`

A shallow embedding of the three functions of the decoder
(`bitsToString`, `uint8_to_hex`, `unknown1_decode`) together with the
properties of the flattening, preamble validation and rendering steps.

Modelling conventions

* A heap block is a `List Nat` of byte values; its length is the size of the
  allocation.  `load` and `store` are bounds checked and return `none` when the
  index lies outside the block (the C program has undefined behaviour there).
* `malloc` does not initialise memory.  The content of a fresh block is an
  explicit parameter (`junk`), reduced modulo 256 byte by byte.  Allocation is
  assumed to succeed, as the decoder itself assumes.
* C `int` and `size_t` values are natural numbers: every counter of the program
  is non-negative and bounded by the total bit count of the capture, so no
  wrap-around can occur.  `uint8_t` shifts are followed by an explicit `% 256`.
* `for` loops with a fixed bound are monadic folds over `List.range`.
-/

namespace Unknown1

/-! ## Memory -/

/-- A fresh block of `size` bytes whose content is whatever the heap held:
byte `i` is `junk i` truncated to eight bits. -/
def malloc (junk : Nat → Nat) (size : Nat) : List Nat :=
  (List.range size).map (fun i => junk i % 256)

/-- Bounds-checked read `buf[i]`. -/
def load (buf : List Nat) (i : Nat) : Option Nat :=
  buf[i]?

/-- Bounds-checked write `buf[i] = v`. -/
def store (buf : List Nat) (i v : Nat) : Option (List Nat) :=
  if i < buf.length then some (buf.set i v) else none

/-- The C string held in a character buffer: the bytes before the first NUL. -/
def cstr (buf : List Nat) : String :=
  String.mk ((buf.takeWhile (fun c => c ≠ 0)).map Char.ofNat)

/-! ## `bitsToString` (lines 57-93) -/

/-- Body of the inner loop (lines 83-84):
`str[u*8 + i] = (b[u] & (1 << (7 - i))) ? '1' : '0'`. -/
def bitsToString_body (b : List Nat) (u : Nat) (str : List Nat) (i : Nat) :
    Option (List Nat) :=
  match load b u with
  | none => none
  | some bu =>
    let y := u * 8 + i
    store str y (if bu &&& (1 <<< (7 - i)) ≠ 0 then '1'.toNat else '0'.toNat)

/-- Body of the outer loop (lines 73-86): compute `ceiling`, then run the inner
loop `for (i = 0; i < ceiling; ++i)`.  Inside the loop `u*8 < numChars`, so the
subtraction never goes below zero. -/
def bitsToString_row (b : List Nat) (numChars : Nat) (str : List Nat) (u : Nat) :
    Option (List Nat) :=
  let ceiling := if numChars - u * 8 ≤ 8 then numChars - u * 8 else 8
  (List.range ceiling).foldlM (bitsToString_body b u) str

/-- The function `bitsToString(b, n)`: allocate `n + 1` characters, fill them
byte by byte, write the terminator.  The result is the character buffer. -/
def bitsToString (junk : Nat → Nat) (b : List Nat) (n : Nat) : Option (List Nat) :=
  let numChars := n
  let str := malloc junk (numChars + 1)
  match (List.range ((numChars + 7) / 8)).foldlM (bitsToString_row b numChars) str with
  | none => none
  | some str => store str numChars 0

/-! ## `uint8_to_hex` (lines 95-117) -/

/-- The table `char hex_table[16] = "0123456789ABCDEF"`. -/
def hex_table : List Nat :=
  "0123456789ABCDEF".toList.map Char.toNat

/-- Body of the loop of `uint8_to_hex` (lines 102-107). -/
def uint8_to_hex_body (data : List Nat) (output : List Nat) (i : Nat) :
    Option (List Nat) :=
  match load data i with
  | none => none
  | some d =>
    match load hex_table (d >>> 4) with
    | none => none
    | some hi =>
      match store output (i * 2) hi with
      | none => none
      | some output =>
        let lowNibble := d
        let lowNibble := (lowNibble <<< 4) % 256
        let lowNibble := lowNibble >>> 4
        match load hex_table lowNibble with
        | none => none
        | some lo => store output (i * 2 + 1) lo

/-- The function `uint8_to_hex(data, data_size, output, output_size)`;
`output_size` is not used by the body.  The result is the `output` buffer. -/
def uint8_to_hex (data : List Nat) (data_size : Nat) (output : List Nat)
    (_output_size : Nat) : Option (List Nat) :=
  match (List.range data_size).foldlM (uint8_to_hex_body data) output with
  | none => none
  | some output => store output (data_size * 2) 0

/-! ## The capture and the record -/

/-- One row of the bit buffer: the packed bytes `bb[r]` and `bits_per_row[r]`. -/
structure Row where
  b : List Nat
  bits_per_row : Nat
  deriving DecidableEq, Repr

/-- Modelled from the spec: `bitbuffer_t` is declared in `bitbuffer.h`, which is
not part of the sources at hand.  Following the data model, a capture is the
ordered sequence of its rows; `num_rows` is the length of the sequence. -/
abbrev bitbuffer_t := List Row

/-- The field `bitbuffer->num_rows`. -/
def num_rows (bitbuffer : bitbuffer_t) : Nat :=
  bitbuffer.length

/-- The four timing fields of `r_device` that the decoder reads. -/
structure r_device where
  short_width : Int
  long_width : Int
  gap_limit : Int
  reset_limit : Int
  deriving DecidableEq, Repr

/-- The value types used in the call of `data_make`. -/
inductive data_value where
  | DATA_STRING (s : String)
  | DATA_DOUBLE (x : Int)
  | DATA_INT (n : Int)
  deriving DecidableEq, Repr

/-- One `key, pretty_key, type, value` group of `data_make`. -/
structure data_field where
  key : String
  pretty_key : Option String
  value : data_value
  deriving DecidableEq, Repr

/-- Modelled from the spec: `data_make` and `data_t` come from `data.h`, which is
not part of the sources at hand.  A record is the list of its fields in the
order of the call; string values are copied into the record. -/
abbrev data_t := List data_field

/-- Modelled from the spec: `decoder_output_data` hands one record to the
output sink; the sink is the list of records received so far. -/
def decoder_output_data (sink : List data_t) (data : data_t) : List data_t :=
  sink ++ [data]

/-- What one run of the decoder leaves behind: the return value, the sink, and
the names of the blocks allocated and freed, in program order. -/
structure Outcome where
  ret : Int
  sink : List data_t
  allocated : List String
  freed : List String
  deriving DecidableEq, Repr

/-! ## `unknown1_decode` (lines 122-244) -/

/-- First loop (lines 130-133): `totalLen += bits_per_row[r]`. -/
def totalLen (bitbuffer : bitbuffer_t) : Nat :=
  bitbuffer.foldl (fun acc row => acc + row.bits_per_row) 0

/-- Body of the bits loop (lines 183-198).  The state is the pair
`(rawData, rawDataPointer)`. -/
def flatten_bit (b : List Nat) (st : List Nat × Nat) (signalBitCounter : Nat) :
    Option (List Nat × Nat) :=
  let rawData := st.1
  let rawDataPointer := st.2
  let signalByteIndex := signalBitCounter / 8
  let signalBitInByteIndex := signalBitCounter % 8
  match load b signalByteIndex with
  | none => none
  | some signalBit =>
    let rawByteIndex := rawDataPointer / 8
    let rawBitInByteIndex := rawDataPointer % 8
    match load rawData rawByteIndex with
    | none => none
    | some rawByte =>
      let signalBit := (signalBit <<< signalBitInByteIndex) % 256
      let signalBit := signalBit >>> 7
      let signalBit := (signalBit <<< (7 - rawBitInByteIndex)) % 256
      let rawByte := rawByte ||| signalBit
      match store rawData rawByteIndex rawByte with
      | none => none
      | some rawData => some (rawData, rawDataPointer + 1)

/-- Body of the rows loop (lines 177-203): the bits loop over one row. -/
def flatten_row (st : List Nat × Nat) (row : Row) : Option (List Nat × Nat) :=
  let b := row.b
  let rowBitCount := row.bits_per_row
  (List.range rowBitCount).foldlM (flatten_bit b) st

/-- The rows loop (lines 176-204). -/
def rows_loop (bitbuffer : bitbuffer_t) (st : List Nat × Nat) : Option (List Nat × Nat) :=
  bitbuffer.foldlM flatten_row st

/-- The preamble loop (lines 207-209) over the indices still to be checked:
`some false` is the early `return 0`, `some true` means the loop ran to its
end. -/
def check_preamble (rawData : List Nat) : List Nat → Option Bool
  | [] => some true
  | i :: rest =>
    match load rawData i with
    | none => none
    | some x => if x ≠ 0xAA then some false else check_preamble rawData rest

/-- The call of `data_make` (lines 223-233). -/
def data_make (decoder : r_device) (totalLen : Nat) (hexChars binary : List Nat)
    (num_rows : Nat) : data_t :=
  [ { key := "model", pretty_key := some "", value := .DATA_STRING "Unknown1" },
    { key := "short_width", pretty_key := none, value := .DATA_DOUBLE decoder.short_width },
    { key := "long_width", pretty_key := none, value := .DATA_DOUBLE decoder.long_width },
    { key := "gap_limit", pretty_key := none, value := .DATA_DOUBLE decoder.gap_limit },
    { key := "reset_limit", pretty_key := none, value := .DATA_DOUBLE decoder.reset_limit },
    { key := "lengthBits", pretty_key := some "lengthBits", value := .DATA_INT totalLen },
    { key := "hex_data", pretty_key := none, value := .DATA_STRING (cstr hexChars) },
    { key := "binary_data", pretty_key := none, value := .DATA_STRING (cstr binary) },
    { key := "rowCount", pretty_key := some "rowCount", value := .DATA_INT num_rows } ]

/-- The function `unknown1_decode(decoder, bitbuffer)`.  `heap k` is the content
found in the block returned by the `k`-th allocation (0 `binaryData`,
1 `rawData`, 2 the first `binary`, 3 the string of `bitsToString`,
4 `hexChars`); `sink` is the state of the output sink before the call.  The
result is `none` when a buffer is accessed outside its bounds.  The call of
`decoder_log_bitbuffer` only logs and is left out. -/
def unknown1_decode (decoder : r_device) (bitbuffer : bitbuffer_t)
    (heap : Nat → Nat → Nat) (sink : List data_t) : Option Outcome :=
  let totalLen := totalLen bitbuffer
  let _binaryData := malloc (heap 0) totalLen
  let rawData := malloc (heap 1) totalLen
  let rawDataPointer := 0
  match rows_loop bitbuffer (rawData, rawDataPointer) with
  | none => none
  | some (rawData, rawDataPointer) =>
    match check_preamble rawData (List.range 8) with
    | none => none
    | some false =>
      some { ret := 0, sink := sink, allocated := ["binaryData", "rawData"], freed := [] }
    | some true =>
      let _binary := malloc (heap 2) totalLen
      match bitsToString (heap 3) rawData rawDataPointer with
      | none => none
      | some binary =>
        let hexChars := malloc (heap 4) totalLen
        match uint8_to_hex rawData ((totalLen + 7) / 8) hexChars ((totalLen + 3) / 4) with
        | none => none
        | some hexChars =>
          let data := data_make decoder totalLen hexChars binary (num_rows bitbuffer)
          some { ret := 1
                 sink := decoder_output_data sink data
                 allocated := ["binaryData", "rawData", "binary", "str", "hexChars"]
                 freed := ["binaryData", "rawData", "str"] }

/-- The device entry `unknown1` (lines 288-298), timing fields only. -/
def unknown1 : r_device :=
  { short_width := 500, long_width := 500, gap_limit := 7000, reset_limit := 10000 }

/-! ## Vocabulary of the properties -/

/-- Bit `k` of a byte buffer, most significant bit first within each byte:
bit `7 - k % 8` of byte `k / 8`. -/
def bitAt (buf : List Nat) (k : Nat) : Bool :=
  (buf.getD (k / 8) 0).testBit (7 - k % 8)

/-- The digit that renders one bit. -/
def bitChar (bit : Bool) : Char :=
  if bit then '1' else '0'

/-- The uppercase hexadecimal digit of a value below sixteen. -/
def hexDigit (v : Nat) : Char :=
  if v < 10 then Char.ofNat ('0'.toNat + v) else Char.ofNat ('A'.toNat + (v - 10))

/-- Two uppercase hexadecimal digits per byte, high nibble first. -/
def hexString : List Nat → List Char
  | [] => []
  | d :: rest => hexDigit (d / 16) :: hexDigit (d % 16) :: hexString rest

/-- The value of one hexadecimal digit `0-9A-F`. -/
def hexVal (c : Char) : Option Nat :=
  if '0'.toNat ≤ c.toNat ∧ c.toNat ≤ '9'.toNat then some (c.toNat - '0'.toNat)
  else if 'A'.toNat ≤ c.toNat ∧ c.toNat ≤ 'F'.toNat then some (c.toNat - 'A'.toNat + 10)
  else none

/-- Decoding a hexadecimal string: two digits per byte, high nibble first. -/
def hexDecode : List Char → Option (List Nat)
  | [] => some []
  | [_] => none
  | h :: l :: rest =>
    match hexVal h, hexVal l, hexDecode rest with
    | some a, some b, some r => some ((16 * a + b) :: r)
    | _, _, _ => none

/-- The first `bits_per_row` bits of a row, most significant bit first. -/
def rowBits (row : Row) : List Bool :=
  (List.range row.bits_per_row).map (bitAt row.b)

/-- The logical concatenation of all rows of a capture, in row order. -/
def concatBits : bitbuffer_t → List Bool
  | [] => []
  | row :: rest => rowBits row ++ concatBits rest

/-- The `(k - offset)`-th bit of the row that contains offset `k`. -/
def rowBitAt : bitbuffer_t → Nat → Bool
  | [], _ => false
  | row :: rest, k =>
    if k < row.bits_per_row then bitAt row.b k else rowBitAt rest (k - row.bits_per_row)

/-- A capture is well formed when every row buffer holds at least the bits the
row declares. -/
def WF (bitbuffer : bitbuffer_t) : Prop :=
  ∀ row ∈ bitbuffer, row.bits_per_row ≤ 8 * row.b.length

/-- OR one bit into position `p` of a buffer (most significant bit first). -/
def orBit (buf : List Nat) (p : Nat) (bit : Bool) : List Nat :=
  buf.set (p / 8) (buf.getD (p / 8) 0 ||| (if bit then 2 ^ (7 - p % 8) else 0))

/-- OR a sequence of bits into a buffer from position `p` on. -/
def orBits : List Nat → Nat → List Bool → List Nat
  | buf, _, [] => buf
  | buf, p, bit :: rest => orBits (orBit buf p bit) (p + 1) rest

instance (bitbuffer : bitbuffer_t) : Decidable (WF bitbuffer) := by
  unfold WF
  infer_instance

/-- Two captures with the same row count, the same bit count in every row and
the same first `bits_per_row` bits in every row. -/
def sameBits : bitbuffer_t → bitbuffer_t → Prop
  | [], [] => True
  | r1 :: c1, r2 :: c2 =>
    r1.bits_per_row = r2.bits_per_row
      ∧ (∀ j, j < r1.bits_per_row → bitAt r1.b j = bitAt r2.b j)
      ∧ sameBits c1 c2
  | _, _ => False

/-- Parsing a string of binary digits back to bits. -/
def parseBits : List Char → Option (List Bool)
  | [] => some []
  | c :: rest =>
    match (if c = '1' then some true else if c = '0' then some false else none),
        parseBits rest with
    | some bit, some bits => some (bit :: bits)
    | _, _ => none

/-- The 64 bits of the preamble: eight bytes `0xAA`. -/
def preambleBits : List Bool :=
  (List.range 64).map (bitAt (List.replicate 8 0xAA))

/-- The value stored in a record under a key. -/
def data_get (data : data_t) (key : String) : Option data_value :=
  (data.find? (fun f => f.key == key)).map data_field.value

/-! ## `output_fields` (lines 253-264) and further vocabulary -/

/-- The array `output_fields`, without its closing `NULL`. -/
def output_fields : List String :=
  [ "model",
    "short_width",
    "long_width",
    "gap_limit",
    "reset_limit",
    "lengthBits",
    "hex_data",
    "binary_data",
    "rowCount" ]

/-- The type tags passed to `data_make`. -/
inductive data_type_t where
  | DATA_STRING
  | DATA_DOUBLE
  | DATA_INT
  deriving DecidableEq, Repr

/-- The type tag of a stored value. -/
def data_value.tag : data_value → data_type_t
  | .DATA_STRING _ => .DATA_STRING
  | .DATA_DOUBLE _ => .DATA_DOUBLE
  | .DATA_INT _ => .DATA_INT

/-- Expanding bytes to binary digits, most significant bit first. -/
def expandBits (bytes : List Nat) : List Char :=
  (List.range (8 * bytes.length)).map (fun k => bitChar (bitAt bytes k))

/-! ## Memory lemmas -/

theorem malloc_length (junk : Nat → Nat) (size : Nat) : (malloc junk size).length = size := by
  simp [malloc]

theorem malloc_lt (junk : Nat → Nat) (size x : Nat) (hx : x ∈ malloc junk size) : x < 256 := by
  simp only [malloc, List.mem_map] at hx
  obtain ⟨i, -, rfl⟩ := hx
  exact Nat.mod_lt _ (by decide)

theorem load_eq_some_of_lt (buf : List Nat) (i : Nat) (h : i < buf.length) :
    load buf i = some (buf.getD i 0) := by
  simp [load, List.getD, List.getElem?_eq_getElem h]

theorem store_of_lt (buf : List Nat) (i v : Nat) (h : i < buf.length) :
    store buf i v = some (buf.set i v) := by
  simp [store, h]

theorem store_append_cons (done rest : List Nat) (x v i : Nat) (hi : done.length = i) :
    store (done ++ x :: rest) i v = some (done ++ v :: rest) := by
  subst hi
  simp [store]

/-- A run of stores at consecutive positions overwrites a segment of the buffer. -/
theorem foldlM_store_seq (g : List Nat → Nat → Option (List Nat)) (f : Nat → Nat)
    (done rest : List Nat) (base c : Nat)
    (hg : ∀ i, i < c → ∀ s, g s i = store s (base + i) (f i))
    (hbase : done.length = base) (hc : c ≤ rest.length) :
    (List.range c).foldlM g (done ++ rest)
      = some (done ++ (List.range c).map f ++ rest.drop c) := by
  induction c with
  | zero => simp
  | succ c ih =>
    have hc1 : c < rest.length := hc
    rw [List.range_succ, List.foldlM_append,
      ih (fun i hi s => hg i (Nat.lt_succ_of_lt hi) s) (Nat.le_of_lt hc1)]
    have hdrop : rest.drop c = rest[c] :: rest.drop (c + 1) := by
      simp
    simp only [List.foldlM_cons, List.foldlM_nil, Option.bind_eq_bind, Option.some_bind,
      List.map_append, List.map_cons, List.map_nil]
    rw [hg c (Nat.lt_succ_self c), hdrop, store_append_cons _ _ _ _ _ (by simp [hbase])]
    simp

/-! ## `bitsToString` -/

theorem and_one_shiftLeft_ne_zero (x j : Nat) :
    (x &&& (1 <<< j) ≠ 0) ↔ x.testBit j = true := by
  rw [Nat.one_shiftLeft]
  constructor
  · intro h
    by_contra hx
    apply h
    apply Nat.eq_of_testBit_eq
    intro i
    simp only [Nat.testBit_and, Nat.testBit_two_pow, Nat.zero_testBit]
    by_cases hji : j = i
    · subst hji; simp [hx]
    · simp [hji]
  · intro h h0
    have := congrArg (fun y => Nat.testBit y j) h0
    simp [Nat.testBit_two_pow_self, h] at this

theorem bitAt_mul_add (b : List Nat) (u i : Nat) (hi : i < 8) :
    bitAt b (u * 8 + i) = (b.getD u 0).testBit (7 - i) := by
  have h1 : (u * 8 + i) / 8 = u := by omega
  have h2 : (u * 8 + i) % 8 = i := by omega
  simp [bitAt, h1, h2]

theorem bitsToString_body_eq (b : List Nat) (u : Nat) (hu : u < b.length) (str : List Nat)
    (i : Nat) (hi : i < 8) :
    bitsToString_body b u str i
      = store str (u * 8 + i) (bitChar (bitAt b (u * 8 + i))).toNat := by
  unfold bitsToString_body
  rw [load_eq_some_of_lt b u hu, bitAt_mul_add b u i hi]
  generalize b.getD u 0 = x
  by_cases hb : x.testBit (7 - i) = true
  · have hne : x &&& (1 <<< (7 - i)) ≠ 0 := (and_one_shiftLeft_ne_zero _ _).2 hb
    simp only [hne, if_true, bitChar, hb, ne_eq, not_false_eq_true]
  · have hne : ¬ (x &&& (1 <<< (7 - i)) ≠ 0) :=
      fun h => hb ((and_one_shiftLeft_ne_zero _ _).1 h)
    simp only [hne, if_false, bitChar, hb, Bool.false_eq_true]

theorem bitsToString_row_eq (b : List Nat) (n u : Nat) (done rest : List Nat)
    (hu : u * 8 < n) (hn : n ≤ 8 * b.length) (hdone : done.length = u * 8)
    (hrest : n - u * 8 ≤ rest.length) :
    bitsToString_row b n (done ++ rest) u
      = some (done
          ++ (List.range (min 8 (n - u * 8))).map
              (fun i => (bitChar (bitAt b (u * 8 + i))).toNat)
          ++ rest.drop (min 8 (n - u * 8))) := by
  unfold bitsToString_row
  have hc : (if n - u * 8 ≤ 8 then n - u * 8 else 8) = min 8 (n - u * 8) := by
    split <;> omega
  simp only [hc]
  apply foldlM_store_seq _ _ done rest (u * 8) _ _ hdone (by omega)
  intro i hi s
  exact bitsToString_body_eq b u (by omega) s i (by omega)

theorem bitsToString_outer (b : List Nat) (n : Nat) (str0 : List Nat)
    (hn : n ≤ 8 * b.length) (hlen : str0.length = n + 1) (U : Nat) (hU : U ≤ (n + 7) / 8) :
    (List.range U).foldlM (bitsToString_row b n) str0
      = some ((List.range (min (8 * U) n)).map (fun y => (bitChar (bitAt b y)).toNat)
          ++ str0.drop (min (8 * U) n)) := by
  induction U with
  | zero => simp
  | succ U ih =>
    have hlt : U * 8 < n := by omega
    rw [List.range_succ, List.foldlM_append, ih (by omega)]
    simp only [List.foldlM_cons, List.foldlM_nil, Option.bind_eq_bind, Option.some_bind]
    have hmin : min (8 * U) n = U * 8 := by omega
    rw [hmin, bitsToString_row_eq b n U _ _ hlt hn (by simp) (by simp [hlen]; omega)]
    simp only [Option.bind_some, List.drop_drop, Option.some.injEq]
    have hsum : min (8 * (U + 1)) n = U * 8 + min 8 (n - U * 8) := by omega
    rw [hsum, List.range_add, List.map_append, List.map_map]
    simp [Function.comp_def, Nat.add_comm]

theorem bitsToString_eq (junk : Nat → Nat) (b : List Nat) (n : Nat) (hn : n ≤ 8 * b.length) :
    bitsToString junk b n
      = some ((List.range n).map (fun y => (bitChar (bitAt b y)).toNat) ++ [0]) := by
  unfold bitsToString
  simp only []
  rw [bitsToString_outer b n _ hn (malloc_length _ _) _ (Nat.le_refl _)]
  have hmin : min (8 * ((n + 7) / 8)) n = n := by omega
  simp only [hmin]
  have hdl : ((malloc junk (n + 1)).drop n).length = 1 := by simp [malloc_length]
  obtain ⟨x, hx⟩ := List.length_eq_one.1 hdl
  rw [hx, store_append_cons _ _ _ _ _ (by simp)]

theorem cstr_codes (cs : List Char) (rest : List Nat) (h : ∀ c ∈ cs, c.toNat ≠ 0) :
    cstr (cs.map Char.toNat ++ 0 :: rest) = String.mk cs := by
  unfold cstr
  rw [List.takeWhile_append_of_pos]
  · simp [List.takeWhile_cons, Function.comp_def]
  · intro a ha
    obtain ⟨c, hc, rfl⟩ := List.mem_map.1 ha
    simpa using h c hc

theorem bitChar_toNat_ne_zero (bit : Bool) : (bitChar bit).toNat ≠ 0 := by
  cases bit <;> decide

/-- The C string returned by `bitsToString`. -/
theorem cstr_bitsToString (junk : Nat → Nat) (b : List Nat) (n : Nat)
    (hn : n ≤ 8 * b.length) :
    (bitsToString junk b n).map cstr
      = some (String.mk ((List.range n).map (fun y => bitChar (bitAt b y)))) := by
  rw [bitsToString_eq junk b n hn]
  have h := cstr_codes ((List.range n).map (fun y => bitChar (bitAt b y))) []
    (by
      intro c hc
      obtain ⟨y, -, rfl⟩ := List.mem_map.1 hc
      exact bitChar_toNat_ne_zero _)
  simp only [List.map_map, Function.comp_def] at h
  simp only [Option.map_some', h]

/-! ## `uint8_to_hex` -/

theorem hex_table_load (v : Nat) (hv : v < 16) :
    load hex_table v = some (hexDigit v).toNat := by
  interval_cases v <;> rfl

theorem hexDigit_toNat_ne_zero (v : Nat) (hv : v < 16) : (hexDigit v).toNat ≠ 0 := by
  interval_cases v <;> decide

theorem hexVal_hexDigit (v : Nat) (hv : v < 16) : hexVal (hexDigit v) = some v := by
  interval_cases v <;> rfl

theorem hexString_append (l : List Nat) (d : Nat) :
    hexString (l ++ [d]) = hexString l ++ [hexDigit (d / 16), hexDigit (d % 16)] := by
  induction l with
  | nil => rfl
  | cons x l ih => simp [hexString, ih]

theorem hexString_length (l : List Nat) : (hexString l).length = 2 * l.length := by
  induction l with
  | nil => rfl
  | cons x l ih => simp [hexString, ih]; omega

theorem uint8_to_hex_body_eq (data : List Nat) (i : Nat) (hi : i < data.length)
    (hd : data.getD i 0 < 256) (done rest : List Nat) (x y : Nat)
    (hdone : done.length = i * 2) :
    uint8_to_hex_body data (done ++ x :: y :: rest) i
      = some (done ++ (hexDigit (data.getD i 0 / 16)).toNat
          :: (hexDigit (data.getD i 0 % 16)).toNat :: rest) := by
  unfold uint8_to_hex_body
  rw [load_eq_some_of_lt data i hi]
  generalize data.getD i 0 = d at hd
  have h1 : d >>> 4 = d / 16 := by rw [Nat.shiftRight_eq_div_pow]
  have h2 : ((d <<< 4) % 256) >>> 4 = d % 16 := by
    rw [Nat.shiftRight_eq_div_pow, Nat.shiftLeft_eq]; omega
  simp only [h1, h2]
  rw [hex_table_load (d / 16) (by omega), hex_table_load (d % 16) (by omega)]
  simp only []
  rw [store_append_cons _ _ _ _ _ hdone]
  simp only []
  have := store_append_cons (done ++ [(hexDigit (d / 16)).toNat]) rest y
    (hexDigit (d % 16)).toNat (i * 2 + 1) (by simp [hdone])
  simpa using this

theorem uint8_to_hex_loop (data : List Nat) (output : List Nat) (m : Nat)
    (hm : m ≤ data.length) (hd : ∀ x ∈ data, x < 256) (hout : 2 * m ≤ output.length) :
    (List.range m).foldlM (uint8_to_hex_body data) output
      = some ((hexString (data.take m)).map Char.toNat ++ output.drop (2 * m)) := by
  induction m with
  | zero => simp [hexString]
  | succ m ih =>
    have hlt : m < data.length := hm
    rw [List.range_succ, List.foldlM_append, ih (Nat.le_of_lt hlt) (by omega)]
    simp only [List.foldlM_cons, List.foldlM_nil, Option.bind_eq_bind, Option.some_bind]
    have hdl : 2 ≤ (output.drop (2 * m)).length := by simp; omega
    obtain ⟨x, y, rest, hxy⟩ : ∃ x y rest, output.drop (2 * m) = x :: y :: rest := by
      match hq : output.drop (2 * m), hdl with
      | x :: y :: rest, _ => exact ⟨x, y, rest, rfl⟩
    have hrest : output.drop (2 * (m + 1)) = rest := by
      have : output.drop (2 * (m + 1)) = (output.drop (2 * m)).drop 2 := by
        rw [List.drop_drop, Nat.mul_succ]
      rw [this, hxy]; rfl
    have hbyte : data.getD m 0 < 256 := by
      apply hd
      simp [List.getD, List.getElem?_eq_getElem hlt]
    rw [hxy, uint8_to_hex_body_eq data m hlt hbyte _ rest x y
      (by simp [hexString_length, Nat.min_eq_left (Nat.le_of_lt hlt)]; omega)]
    have htake : data.take (m + 1) = data.take m ++ [data.getD m 0] := by
      rw [List.take_succ]
      simp [List.getD, List.getElem?_eq_getElem hlt]
    simp [htake, hexString_append, hrest]

theorem uint8_to_hex_eq (data : List Nat) (m : Nat) (output : List Nat) (sz : Nat)
    (hm : m ≤ data.length) (hd : ∀ x ∈ data, x < 256) (hout : 2 * m + 1 ≤ output.length) :
    uint8_to_hex data m output sz
      = some ((hexString (data.take m)).map Char.toNat ++ 0 :: output.drop (2 * m + 1)) := by
  unfold uint8_to_hex
  rw [uint8_to_hex_loop data output m hm hd (by omega)]
  simp only []
  have hdl : 1 ≤ (output.drop (2 * m)).length := by simp; omega
  obtain ⟨x, rest, hx⟩ : ∃ x rest, output.drop (2 * m) = x :: rest := by
    match hq : output.drop (2 * m), hdl with
    | x :: rest, _ => exact ⟨x, rest, rfl⟩
  have hrest : output.drop (2 * m + 1) = rest := by
    have : output.drop (2 * m + 1) = (output.drop (2 * m)).drop 1 := by
      rw [List.drop_drop]
    rw [this, hx]; rfl
  rw [hx, hrest, store_append_cons _ _ _ _ _
    (by simp [hexString_length, Nat.min_eq_left hm]; omega)]

theorem hexString_toNat_ne_zero (l : List Nat) (hl : ∀ x ∈ l, x < 256) :
    ∀ c ∈ hexString l, c.toNat ≠ 0 := by
  induction l with
  | nil => simp [hexString]
  | cons x l ih =>
    intro c hc
    simp only [hexString, List.mem_cons] at hc
    have hx : x < 256 := hl x (List.mem_cons_self _ _)
    rcases hc with rfl | rfl | hc
    · exact hexDigit_toNat_ne_zero _ (by omega)
    · exact hexDigit_toNat_ne_zero _ (by omega)
    · exact ih (fun y hy => hl y (List.mem_cons_of_mem _ hy)) c hc

/-- The C string left in `output` by `uint8_to_hex`. -/
theorem cstr_uint8_to_hex (data : List Nat) (m : Nat) (output : List Nat) (sz : Nat)
    (hm : m ≤ data.length) (hd : ∀ x ∈ data, x < 256) (hout : 2 * m + 1 ≤ output.length) :
    (uint8_to_hex data m output sz).map cstr = some (String.mk (hexString (data.take m))) := by
  rw [uint8_to_hex_eq data m output sz hm hd hout]
  simp only [Option.map_some']
  rw [cstr_codes _ _ (hexString_toNat_ne_zero _
    (fun x hx => hd x (List.mem_of_mem_take hx)))]

theorem hexDecode_hexString (l : List Nat) (hl : ∀ x ∈ l, x < 256) :
    hexDecode (hexString l) = some l := by
  induction l with
  | nil => rfl
  | cons x l ih =>
    have hx : x < 256 := hl x (List.mem_cons_self _ _)
    simp only [hexString, hexDecode]
    rw [hexVal_hexDigit _ (by omega), hexVal_hexDigit _ (by omega),
      ih (fun y hy => hl y (List.mem_cons_of_mem _ hy))]
    simp only [Option.some.injEq, List.cons.injEq, and_true]
    omega

/-! ## The rows loop -/

theorem totalLen_foldl (bitbuffer : bitbuffer_t) (a : Nat) :
    bitbuffer.foldl (fun acc row => acc + row.bits_per_row) a
      = a + (bitbuffer.map Row.bits_per_row).sum := by
  induction bitbuffer generalizing a with
  | nil => simp
  | cons row rest ih => simp [ih, Nat.add_assoc]

theorem totalLen_eq_sum (bitbuffer : bitbuffer_t) :
    totalLen bitbuffer = (bitbuffer.map Row.bits_per_row).sum := by
  simp [totalLen, totalLen_foldl]

theorem totalLen_cons (row : Row) (rest : bitbuffer_t) :
    totalLen (row :: rest) = row.bits_per_row + totalLen rest := by
  simp [totalLen_eq_sum]

theorem rowBits_length (row : Row) : (rowBits row).length = row.bits_per_row := by
  simp [rowBits]

theorem concatBits_length (bitbuffer : bitbuffer_t) :
    (concatBits bitbuffer).length = totalLen bitbuffer := by
  induction bitbuffer with
  | nil => rfl
  | cons row rest ih => simp [concatBits, totalLen_cons, rowBits_length, ih]

/-- The single bit moved by one round of the bits loop. -/
theorem signalBit_eq (x j r : Nat) (hr : r < 8) :
    ((((x <<< (j % 8)) % 256) >>> 7) <<< (7 - r)) % 256
      = if x.testBit (7 - j % 8) then 2 ^ (7 - r) else 0 := by
  have hk : j % 8 < 8 := Nat.mod_lt _ (by decide)
  generalize j % 8 = k at hk
  have ht2 : ((x <<< k) % 256) >>> 7 < 2 := by
    rw [Nat.shiftRight_eq_div_pow]
    have : (x <<< k) % 256 < 256 := Nat.mod_lt _ (by decide)
    omega
  have hbit : (((x <<< k) % 256) >>> 7).testBit 0 = x.testBit (7 - k) := by
    rw [Nat.testBit_shiftRight]
    have h256 : (256 : Nat) = 2 ^ 8 := by norm_num
    rw [h256, Nat.testBit_mod_two_pow, Nat.testBit_shiftLeft]
    have : k ≤ 7 := by omega
    simp [this]
  generalize ((x <<< k) % 256) >>> 7 = t at ht2 hbit
  have hpow : 2 ^ (7 - r) < 256 := by
    have : 7 - r ≤ 7 := by omega
    calc 2 ^ (7 - r) ≤ 2 ^ 7 := Nat.pow_le_pow_right (by decide) this
      _ < 256 := by norm_num
  interval_cases t
  · have : x.testBit (7 - k) = false := by rw [← hbit]; rfl
    simp [this]
  · have : x.testBit (7 - k) = true := by rw [← hbit]; rfl
    simp [this, Nat.shiftLeft_eq, Nat.mod_eq_of_lt hpow]

theorem flatten_bit_eq (b : List Nat) (rawData : List Nat) (p j : Nat)
    (hj : j / 8 < b.length) (hp : p / 8 < rawData.length) :
    flatten_bit b (rawData, p) j = some (orBit rawData p (bitAt b j), p + 1) := by
  unfold flatten_bit
  simp only []
  rw [load_eq_some_of_lt b _ hj, load_eq_some_of_lt rawData _ hp]
  simp only []
  rw [signalBit_eq _ j (p % 8) (Nat.mod_lt _ (by decide)), store_of_lt _ _ _ hp]
  rfl

theorem orBit_length (buf : List Nat) (p : Nat) (bit : Bool) :
    (orBit buf p bit).length = buf.length := by
  simp [orBit]

theorem orBits_length (buf : List Nat) (p : Nat) (bits : List Bool) :
    (orBits buf p bits).length = buf.length := by
  induction bits generalizing buf p with
  | nil => rfl
  | cons bit rest ih => simp [orBits, ih, orBit_length]

theorem orBits_append (buf : List Nat) (p : Nat) (l1 l2 : List Bool) :
    orBits buf p (l1 ++ l2) = orBits (orBits buf p l1) (p + l1.length) l2 := by
  induction l1 generalizing buf p with
  | nil => rfl
  | cons bit rest ih =>
    have h : p + 1 + rest.length = p + (rest.length + 1) := by omega
    show orBits (orBit buf p bit) (p + 1) (rest ++ l2)
      = orBits (orBits (orBit buf p bit) (p + 1) rest) (p + (rest.length + 1)) l2
    rw [ih, h]

theorem flatten_row_eq (row : Row) (rawData : List Nat) (p : Nat)
    (hrow : row.bits_per_row ≤ 8 * row.b.length)
    (hbuf : p + row.bits_per_row ≤ 8 * rawData.length) :
    flatten_row (rawData, p) row
      = some (orBits rawData p (rowBits row), p + row.bits_per_row) := by
  unfold flatten_row rowBits
  simp only []
  generalize row.bits_per_row = n at hrow hbuf
  induction n with
  | zero => rfl
  | succ n ih =>
    rw [List.range_succ, List.foldlM_append, ih (by omega) (by omega)]
    simp only [List.foldlM_cons, List.foldlM_nil, Option.bind_eq_bind, Option.some_bind]
    rw [flatten_bit_eq _ _ _ _ (by omega) (by rw [orBits_length]; omega)]
    simp only [Option.bind_some, List.map_append, List.map_cons, List.map_nil, orBits_append,
      List.length_map, List.length_range, orBits]
    rfl

theorem rows_loop_eq (bitbuffer : bitbuffer_t) (rawData : List Nat) (p : Nat)
    (hwf : WF bitbuffer) (hbuf : p + totalLen bitbuffer ≤ 8 * rawData.length) :
    rows_loop bitbuffer (rawData, p)
      = some (orBits rawData p (concatBits bitbuffer), p + totalLen bitbuffer) := by
  induction bitbuffer generalizing rawData p with
  | nil => rfl
  | cons row rest ih =>
    rw [totalLen_cons] at hbuf
    have hrow : row.bits_per_row ≤ 8 * row.b.length := hwf row (List.mem_cons_self _ _)
    have hrest : WF rest := fun r hr => hwf r (List.mem_cons_of_mem _ hr)
    unfold rows_loop at ih ⊢
    rw [List.foldlM_cons, flatten_row_eq row rawData p hrow (by omega)]
    simp only [Option.bind_eq_bind, Option.some_bind]
    rw [ih _ _ hrest (by rw [orBits_length]; omega)]
    simp only [concatBits, orBits_append, rowBits_length, totalLen_cons, Nat.add_assoc]

/-! ## Bits of the flattened buffer -/

theorem bitAt_orBit (buf : List Nat) (p : Nat) (bit : Bool) (k : Nat)
    (hp : p / 8 < buf.length) :
    bitAt (orBit buf p bit) k = if k = p then (bitAt buf p || bit) else bitAt buf k := by
  unfold bitAt orBit
  by_cases hkp : k / 8 = p / 8
  · rw [hkp]
    have hget : (buf.set (p / 8) (buf.getD (p / 8) 0 ||| (if bit then 2 ^ (7 - p % 8) else 0))).getD
        (p / 8) 0 = buf.getD (p / 8) 0 ||| (if bit then 2 ^ (7 - p % 8) else 0) := by
      simp [List.getD, List.getElem?_set, hp]
    rw [hget, Nat.testBit_lor]
    by_cases hk : k = p
    · subst hk
      cases bit <;> simp [Nat.testBit_two_pow_self]
    · have hne : 7 - p % 8 ≠ 7 - k % 8 := by omega
      cases bit <;> simp [hk, Nat.testBit_two_pow_of_ne hne]
  · have hk : k ≠ p := fun h => hkp (by rw [h])
    have hget : (buf.set (p / 8) (buf.getD (p / 8) 0 ||| (if bit then 2 ^ (7 - p % 8) else 0))).getD
        (k / 8) 0 = buf.getD (k / 8) 0 := by
      simp [List.getD, List.getElem?_set, Ne.symm hkp]
    rw [hget]
    simp [hk]

theorem bitAt_orBits (buf : List Nat) (p : Nat) (bits : List Bool) (k : Nat)
    (h : p + bits.length ≤ 8 * buf.length) :
    bitAt (orBits buf p bits) k
      = (bitAt buf k || (decide (p ≤ k) && bits.getD (k - p) false)) := by
  induction bits generalizing buf p with
  | nil => simp [orBits]
  | cons bit rest ih =>
    simp only [List.length_cons] at h
    simp only [orBits]
    rw [ih _ _ (by rw [orBit_length]; omega), bitAt_orBit _ _ _ _ (by omega)]
    by_cases hk : k = p
    · subst hk
      simp
    · by_cases hlt : k < p
      · have h1 : ¬ p + 1 ≤ k := by omega
        have h2 : ¬ p ≤ k := by omega
        simp [hk, h1, h2]
      · have h1 : p + 1 ≤ k := by omega
        have h2 : p ≤ k := by omega
        have h3 : k - p = (k - (p + 1)) + 1 := by omega
        simp only [hk, if_false, h1, h2, decide_True, Bool.true_and]
        rw [h3, List.getD_cons_succ]

theorem orBit_lt (buf : List Nat) (p : Nat) (bit : Bool) (h : ∀ x ∈ buf, x < 256) :
    ∀ x ∈ orBit buf p bit, x < 256 := by
  intro x hx
  unfold orBit at hx
  rcases List.mem_or_eq_of_mem_set hx with hx | rfl
  · exact h x hx
  · have h1 : buf.getD (p / 8) 0 < 2 ^ 8 := by
      by_cases hp : p / 8 < buf.length
      · have : buf.getD (p / 8) 0 ∈ buf := by
          simp [List.getD, List.getElem?_eq_getElem hp]
        exact h _ this
      · simp [List.getD, List.getElem?_eq_none (Nat.le_of_not_lt hp)]
    have h2 : (if bit then 2 ^ (7 - p % 8) else 0) < 2 ^ 8 := by
      cases bit
      · simp
      · simp only [if_true]
        exact Nat.pow_lt_pow_right (by decide) (by omega)
    exact Nat.or_lt_two_pow h1 h2

theorem orBits_lt (buf : List Nat) (p : Nat) (bits : List Bool) (h : ∀ x ∈ buf, x < 256) :
    ∀ x ∈ orBits buf p bits, x < 256 := by
  induction bits generalizing buf p with
  | nil => exact h
  | cons bit rest ih => exact ih _ _ (orBit_lt buf p bit h)

theorem concatBits_getD (bitbuffer : bitbuffer_t) (k : Nat) :
    (concatBits bitbuffer).getD k false = rowBitAt bitbuffer k := by
  induction bitbuffer generalizing k with
  | nil => simp [concatBits, rowBitAt]
  | cons row rest ih =>
    simp only [concatBits, rowBitAt]
    by_cases hk : k < row.bits_per_row
    · simp only [hk, if_true]
      rw [List.getD_append _ _ _ _ (by rw [rowBits_length]; exact hk)]
      simp [rowBits, List.getD, hk]
    · simp only [hk, if_false]
      rw [List.getD_append_right _ _ _ _ (by rw [rowBits_length]; omega), rowBits_length, ih]

theorem bitAt_malloc_zero (size k : Nat) : bitAt (malloc (fun _ => 0) size) k = false := by
  unfold bitAt malloc
  by_cases hk : k / 8 < size
  · simp [List.getD, hk]
  · simp [List.getD, hk]

/-- With WF rows the rows loop succeeds; bit `k` of its result is the initial bit
ORed with bit `k` of the concatenated rows, and positions from the total on keep
their initial value. -/
theorem rows_loop_bits (bitbuffer : bitbuffer_t) (junk : Nat → Nat) (hwf : WF bitbuffer) :
    ∃ rawData, rows_loop bitbuffer (malloc junk (totalLen bitbuffer), 0)
        = some (rawData, totalLen bitbuffer)
      ∧ rawData.length = totalLen bitbuffer
      ∧ (∀ x ∈ rawData, x < 256)
      ∧ (∀ k, k < totalLen bitbuffer → bitAt rawData k
          = (bitAt (malloc junk (totalLen bitbuffer)) k || rowBitAt bitbuffer k))
      ∧ (∀ k, totalLen bitbuffer ≤ k → bitAt rawData k
          = bitAt (malloc junk (totalLen bitbuffer)) k) := by
  have hbuf : 0 + totalLen bitbuffer ≤ 8 * (malloc junk (totalLen bitbuffer)).length := by
    rw [malloc_length]; omega
  have hcl : 0 + (concatBits bitbuffer).length
      ≤ 8 * (malloc junk (totalLen bitbuffer)).length := by
    rw [concatBits_length]; exact hbuf
  refine ⟨orBits (malloc junk (totalLen bitbuffer)) 0 (concatBits bitbuffer), ?_, ?_, ?_, ?_, ?_⟩
  · have := rows_loop_eq bitbuffer (malloc junk (totalLen bitbuffer)) 0 hwf hbuf
    simpa using this
  · rw [orBits_length, malloc_length]
  · exact orBits_lt _ _ _ (malloc_lt _ _)
  · intro k _
    rw [bitAt_orBits _ _ _ _ hcl, concatBits_getD]
    simp
  · intro k hk
    rw [bitAt_orBits _ _ _ _ hcl]
    have : (concatBits bitbuffer).getD (k - 0) false = false := by
      simp [List.getD, List.getElem?_eq_none, concatBits_length, hk]
    rw [this]
    simp

/-! ## The preamble loop and the decoder -/

theorem check_preamble_eq (rawData : List Nat) (idxs : List Nat)
    (h : ∀ i ∈ idxs, i < rawData.length) :
    check_preamble rawData idxs
      = some (idxs.all (fun i => rawData.getD i 0 == 0xAA)) := by
  induction idxs with
  | nil => rfl
  | cons i rest ih =>
    have hi : i < rawData.length := h i (List.mem_cons_self _ _)
    have hrest := ih (fun j hj => h j (List.mem_cons_of_mem _ hj))
    unfold check_preamble
    rw [load_eq_some_of_lt rawData i hi]
    simp only [List.all_cons]
    by_cases hx : rawData.getD i 0 = 0xAA
    · simp only [hx, ne_eq, not_true_eq_false, if_false, hrest, beq_self_eq_true, Bool.true_and]
    · have hb : (rawData.getD i 0 == 0xAA) = false := by simpa using hx
      simp only [ne_eq, hx, not_false_eq_true, if_true, hb, Bool.false_and]

theorem check_preamble_true (rawData : List Nat) (idxs : List Nat)
    (h : check_preamble rawData idxs = some true) :
    ∀ i ∈ idxs, load rawData i = some 0xAA := by
  induction idxs with
  | nil => simp
  | cons i rest ih =>
    unfold check_preamble at h
    cases hl : load rawData i with
    | none => rw [hl] at h; simp at h
    | some x =>
      rw [hl] at h
      simp only [] at h
      by_cases hx : x = 0xAA
      · subst hx
        simp only [ne_eq, not_true_eq_false, if_false] at h
        intro j hj
        rcases List.mem_cons.1 hj with rfl | hj
        · exact hl
        · exact ih h j hj
      · simp [hx] at h

theorem check_preamble_length (rawData : List Nat)
    (h : check_preamble rawData (List.range 8) = some true) : 8 ≤ rawData.length := by
  have h7 := check_preamble_true rawData _ h 7 (by simp)
  unfold load at h7
  by_contra hlt
  rw [List.getElem?_eq_none (by omega)] at h7
  simp at h7

/-- On a WF capture of at least eight bits no access leaves its buffer, and the
result of the decoder is determined by the comparison of the first eight bytes of
the flattened buffer. -/
theorem unknown1_decode_eq (decoder : r_device) (bitbuffer : bitbuffer_t)
    (heap : Nat → Nat → Nat) (sink : List data_t)
    (hwf : WF bitbuffer) (ht : 8 ≤ totalLen bitbuffer) :
    ∃ hexChars binary,
      bitsToString (heap 3)
          (orBits (malloc (heap 1) (totalLen bitbuffer)) 0 (concatBits bitbuffer))
          (totalLen bitbuffer) = some binary
      ∧ uint8_to_hex
          (orBits (malloc (heap 1) (totalLen bitbuffer)) 0 (concatBits bitbuffer))
          ((totalLen bitbuffer + 7) / 8) (malloc (heap 4) (totalLen bitbuffer))
          ((totalLen bitbuffer + 3) / 4) = some hexChars
      ∧ cstr binary = String.mk ((List.range (totalLen bitbuffer)).map (fun y => bitChar
          (bitAt (orBits (malloc (heap 1) (totalLen bitbuffer)) 0 (concatBits bitbuffer)) y)))
      ∧ cstr hexChars = String.mk (hexString
          ((orBits (malloc (heap 1) (totalLen bitbuffer)) 0 (concatBits bitbuffer)).take
            ((totalLen bitbuffer + 7) / 8)))
      ∧ unknown1_decode decoder bitbuffer heap sink
        = some (if (List.range 8).all (fun i =>
              (orBits (malloc (heap 1) (totalLen bitbuffer)) 0 (concatBits bitbuffer)).getD i 0
                == 0xAA)
            then { ret := 1
                   sink := decoder_output_data sink
                     (data_make decoder (totalLen bitbuffer) hexChars binary (num_rows bitbuffer))
                   allocated := ["binaryData", "rawData", "binary", "str", "hexChars"]
                   freed := ["binaryData", "rawData", "str"] }
            else { ret := 0, sink := sink, allocated := ["binaryData", "rawData"],
                   freed := [] }) := by
  generalize hR : orBits (malloc (heap 1) (totalLen bitbuffer)) 0 (concatBits bitbuffer) = rawData
  have hlen : rawData.length = totalLen bitbuffer := by
    rw [← hR, orBits_length, malloc_length]
  have hlt : ∀ x ∈ rawData, x < 256 := by
    rw [← hR]; exact orBits_lt _ _ _ (malloc_lt _ _)
  have hloop : rows_loop bitbuffer (malloc (heap 1) (totalLen bitbuffer), 0)
      = some (rawData, totalLen bitbuffer) := by
    have := rows_loop_eq bitbuffer (malloc (heap 1) (totalLen bitbuffer)) 0 hwf
      (by rw [malloc_length]; omega)
    rw [this, hR]; simp
  have hbin := bitsToString_eq (heap 3) rawData (totalLen bitbuffer) (by rw [hlen]; omega)
  have hhex := uint8_to_hex_eq rawData ((totalLen bitbuffer + 7) / 8)
    (malloc (heap 4) (totalLen bitbuffer)) ((totalLen bitbuffer + 3) / 4)
    (by rw [hlen]; omega) hlt (by rw [malloc_length]; omega)
  have hbinc := cstr_bitsToString (heap 3) rawData (totalLen bitbuffer) (by rw [hlen]; omega)
  have hhexc := cstr_uint8_to_hex rawData ((totalLen bitbuffer + 7) / 8)
    (malloc (heap 4) (totalLen bitbuffer)) ((totalLen bitbuffer + 3) / 4)
    (by rw [hlen]; omega) hlt (by rw [malloc_length]; omega)
  rw [hbin] at hbinc
  rw [hhex] at hhexc
  simp only [Option.map_some', Option.some.injEq] at hbinc hhexc
  refine ⟨_, _, hbin, hhex, hbinc, hhexc, ?_⟩
  unfold unknown1_decode
  simp only [hloop]
  rw [check_preamble_eq rawData _ (by intro i hi; rw [hlen]; simp at hi; omega)]
  cases hall : (List.range 8).all (fun i => rawData.getD i 0 == 0xAA)
  · simp
  · simp only [hbin, hhex, if_true]

/-- A decoder run that returns 1 on a WF capture saw at least eight bits. -/
theorem unknown1_decode_ret_one_len (decoder : r_device) (bitbuffer : bitbuffer_t)
    (heap : Nat → Nat → Nat) (sink : List data_t) (o : Outcome)
    (hwf : WF bitbuffer) (h : unknown1_decode decoder bitbuffer heap sink = some o)
    (hret : o.ret = 1) : 8 ≤ totalLen bitbuffer := by
  have hloop := rows_loop_eq bitbuffer (malloc (heap 1) (totalLen bitbuffer)) 0 hwf
    (by rw [malloc_length]; omega)
  unfold unknown1_decode at h
  simp only [hloop] at h
  cases hc : check_preamble (orBits (malloc (heap 1) (totalLen bitbuffer)) 0
      (concatBits bitbuffer)) (List.range 8) with
  | none => rw [hc] at h; simp at h
  | some ok =>
    cases ok with
    | false =>
      rw [hc] at h
      simp only [Option.some.injEq] at h
      rw [← h] at hret
      simp at hret
    | true =>
      have := check_preamble_length _ hc
      rwa [orBits_length, malloc_length] at this

/-! ## Further facts about the renderings -/

theorem hexString_getElem (l : List Nat) (i : Nat) (hi : i < l.length) :
    (hexString l)[2 * i]? = some (hexDigit (l.getD i 0 / 16))
      ∧ (hexString l)[2 * i + 1]? = some (hexDigit (l.getD i 0 % 16)) := by
  induction l generalizing i with
  | nil => simp at hi
  | cons x l ih =>
    cases i with
    | zero => simp [hexString]
    | succ i =>
      have hi2 : i < l.length := by simpa using hi
      have h1 : 2 * (i + 1) = (2 * i + 1) + 1 := by omega
      have h2 : 2 * (i + 1) + 1 = (2 * i + 1 + 1) + 1 := by omega
      obtain ⟨ha, hb⟩ := ih i hi2
      constructor
      · rw [h1]
        simp only [hexString, List.getElem?_cons_succ, List.getD_cons_succ]
        exact ha
      · rw [h2]
        simp only [hexString, List.getElem?_cons_succ, List.getD_cons_succ]
        exact hb

theorem hexDigit_mem (v : Nat) (hv : v < 16) : hexDigit v ∈ "0123456789ABCDEF".toList := by
  interval_cases v <;> decide

theorem hexString_mem (l : List Nat) (hl : ∀ x ∈ l, x < 256) :
    ∀ c ∈ hexString l, c ∈ "0123456789ABCDEF".toList := by
  induction l with
  | nil => simp [hexString]
  | cons x l ih =>
    intro c hc
    simp only [hexString, List.mem_cons] at hc
    have hx : x < 256 := hl x (List.mem_cons_self _ _)
    rcases hc with rfl | rfl | hc
    · exact hexDigit_mem _ (by omega)
    · exact hexDigit_mem _ (by omega)
    · exact ih (fun y hy => hl y (List.mem_cons_of_mem _ hy)) c hc

theorem parseBits_map_bitChar (bits : List Bool) :
    parseBits (bits.map bitChar) = some bits := by
  induction bits with
  | nil => rfl
  | cons bit rest ih =>
    cases bit
    · simp only [List.map_cons, parseBits, ih, bitChar]
      rfl
    · simp only [List.map_cons, parseBits, ih, bitChar]
      rfl

theorem rowBits_congr (r1 r2 : Row) (hn : r1.bits_per_row = r2.bits_per_row)
    (hb : ∀ j, j < r1.bits_per_row → bitAt r1.b j = bitAt r2.b j) :
    rowBits r1 = rowBits r2 := by
  unfold rowBits
  rw [← hn]
  apply List.map_congr_left
  intro j hj
  exact hb j (List.mem_range.1 hj)

theorem sameBits_facts (c1 c2 : bitbuffer_t) (h : sameBits c1 c2) :
    concatBits c1 = concatBits c2 ∧ totalLen c1 = totalLen c2
      ∧ num_rows c1 = num_rows c2 := by
  induction c1 generalizing c2 with
  | nil =>
    cases c2 with
    | nil => exact ⟨rfl, rfl, rfl⟩
    | cons r2 c2 => simp [sameBits] at h
  | cons r1 c1 ih =>
    cases c2 with
    | nil => simp [sameBits] at h
    | cons r2 c2 =>
      simp only [sameBits] at h
      obtain ⟨hn, hb, hrest⟩ := h
      obtain ⟨e1, e2, e3⟩ := ih c2 hrest
      refine ⟨?_, ?_, ?_⟩
      · simp only [concatBits, rowBits_congr r1 r2 hn hb, e1]
      · simp only [totalLen_cons, hn, e2]
      · simp only [num_rows, List.length_cons] at e3 ⊢
        omega

theorem data_make_hex_data (decoder : r_device) (t : Nat) (hexChars binary : List Nat)
    (n : Nat) :
    data_get (data_make decoder t hexChars binary n) "hex_data"
      = some (.DATA_STRING (cstr hexChars)) := by
  simp [data_get, data_make, List.find?]

theorem data_make_binary_data (decoder : r_device) (t : Nat) (hexChars binary : List Nat)
    (n : Nat) :
    data_get (data_make decoder t hexChars binary n) "binary_data"
      = some (.DATA_STRING (cstr binary)) := by
  simp [data_get, data_make, List.find?]

/-! ## The intended behaviour, on a zeroed block -/

theorem take_eq_map_range (l : List Bool) (n : Nat) (h : n ≤ l.length) :
    l.take n = (List.range n).map (fun k => l.getD k false) := by
  apply List.ext_getElem?
  intro i
  by_cases hi : i < n
  · have hil : i < l.length := by omega
    simp [List.getElem?_take, hi, List.getElem?_map, List.getElem?_range hi, List.getD,
      List.getElem?_eq_getElem hil]
  · have h1 : (l.take n)[i]? = none := by
      apply List.getElem?_eq_none
      simp; omega
    have h2 : ((List.range n).map (fun k => l.getD k false))[i]? = none := by
      apply List.getElem?_eq_none
      simp; omega
    rw [h1, h2]

/-- On a zeroed block the flattened buffer holds exactly the concatenated rows. -/
theorem rows_loop_zeroed (bitbuffer : bitbuffer_t) (hwf : WF bitbuffer) :
    ∃ rawData, rows_loop bitbuffer (malloc (fun _ => 0) (totalLen bitbuffer), 0)
        = some (rawData, totalLen bitbuffer)
      ∧ rawData = orBits (malloc (fun _ => 0) (totalLen bitbuffer)) 0 (concatBits bitbuffer)
      ∧ (∀ k, k < totalLen bitbuffer → bitAt rawData k = rowBitAt bitbuffer k)
      ∧ (List.range (totalLen bitbuffer)).map (bitAt rawData) = concatBits bitbuffer := by
  have hbuf : 0 + totalLen bitbuffer
      ≤ 8 * (malloc (fun _ => 0) (totalLen bitbuffer)).length := by
    rw [malloc_length]; omega
  have hcl : 0 + (concatBits bitbuffer).length
      ≤ 8 * (malloc (fun _ => 0) (totalLen bitbuffer)).length := by
    rw [concatBits_length]; exact hbuf
  have hloop := rows_loop_eq bitbuffer (malloc (fun _ => 0) (totalLen bitbuffer)) 0 hwf hbuf
  rw [Nat.zero_add] at hloop
  have hbits : ∀ k, bitAt (orBits (malloc (fun _ => 0) (totalLen bitbuffer)) 0
      (concatBits bitbuffer)) k = (concatBits bitbuffer).getD k false := by
    intro k
    rw [bitAt_orBits _ _ _ _ hcl, bitAt_malloc_zero]
    simp
  refine ⟨_, hloop, rfl, ?_, ?_⟩
  · intro k _
    rw [hbits, concatBits_getD]
  · have h1 := take_eq_map_range (concatBits bitbuffer) (totalLen bitbuffer)
      (by rw [concatBits_length])
    rw [List.take_of_length_le (by rw [concatBits_length])] at h1
    refine (List.map_congr_left ?_).trans h1.symm
    intro k _
    exact hbits k

theorem getD_lt_256 (buf : List Nat) (hlt : ∀ x ∈ buf, x < 256) (i : Nat) :
    buf.getD i 0 < 256 := by
  by_cases hi : i < buf.length
  · apply hlt
    simp [List.getD, List.getElem?_eq_getElem hi]
  · simp [List.getD, List.getElem?_eq_none (Nat.le_of_not_lt hi)]

theorem replicate_AA_getD (i : Nat) (hi : i < 8) :
    (List.replicate 8 0xAA).getD i 0 = 0xAA := by
  interval_cases i <;> rfl

/-- The first eight bytes are `0xAA` exactly when the first 64 bits are the
preamble bits. -/
theorem preamble_bytes_iff_bits (buf : List Nat) (hlt : ∀ x ∈ buf, x < 256) :
    (List.range 8).all (fun i => buf.getD i 0 == 0xAA) = true
      ↔ ∀ k, k < 64 → bitAt buf k = bitAt (List.replicate 8 0xAA) k := by
  constructor
  · intro h k hk
    rw [List.all_eq_true] at h
    have hi : k / 8 < 8 := by omega
    have hb := h (k / 8) (List.mem_range.2 hi)
    simp only [beq_iff_eq] at hb
    unfold bitAt
    rw [hb, replicate_AA_getD _ hi]
  · intro h
    rw [List.all_eq_true]
    intro i hi
    have hi8 : i < 8 := List.mem_range.1 hi
    simp only [beq_iff_eq]
    apply Nat.eq_of_testBit_eq
    intro j
    by_cases hj : j < 8
    · have hk := h (i * 8 + (7 - j)) (by omega)
      rw [bitAt_mul_add _ _ _ (by omega), bitAt_mul_add _ _ _ (by omega),
        replicate_AA_getD _ hi8] at hk
      have h7 : 7 - (7 - j) = j := by omega
      rw [h7] at hk
      exact hk
    · have hp : (256 : Nat) ≤ 2 ^ j := by
        calc (256 : Nat) = 2 ^ 8 := by norm_num
          _ ≤ 2 ^ j := Nat.pow_le_pow_right (by decide) (by omega)
      rw [Nat.testBit_lt_two_pow (Nat.lt_of_lt_of_le (getD_lt_256 buf hlt i) hp),
        Nat.testBit_lt_two_pow (Nat.lt_of_lt_of_le (by norm_num : (0xAA : Nat) < 256) hp)]

/-- On a zeroed block, a WF capture of at least 64 bits is accepted exactly when
its first 64 bits are the preamble. -/
theorem unknown1_decode_zeroed (decoder : r_device) (bitbuffer : bitbuffer_t)
    (heap : Nat → Nat → Nat) (sink : List data_t) (hwf : WF bitbuffer)
    (ht : 64 ≤ totalLen bitbuffer) (hz : heap 1 = fun _ => 0) :
    ∃ o, unknown1_decode decoder bitbuffer heap sink = some o
      ∧ (o.ret = 1 ↔ (concatBits bitbuffer).take 64 = preambleBits)
      ∧ (o.ret = 0 ∨ o.ret = 1) := by
  obtain ⟨hexChars, binary, -, -, -, -, hdec⟩ :=
    unknown1_decode_eq decoder bitbuffer heap sink hwf (by omega)
  obtain ⟨rawData, -, hraw, -, hmap⟩ := rows_loop_zeroed bitbuffer hwf
  rw [hz] at hdec
  rw [← hraw] at hdec
  have hlt : ∀ x ∈ rawData, x < 256 := by
    rw [hraw]; exact orBits_lt _ _ _ (malloc_lt _ _)
  have hiff := preamble_bytes_iff_bits rawData hlt
  have hpre : (concatBits bitbuffer).take 64 = preambleBits
      ↔ ∀ k, k < 64 → bitAt rawData k = bitAt (List.replicate 8 0xAA) k := by
    rw [← hmap, ← List.map_take, List.take_range, Nat.min_eq_left ht]
    unfold preambleBits
    rw [List.map_inj_left]
    constructor
    · intro h k hk; exact h k (List.mem_range.2 hk)
    · intro h k hk; exact h k (List.mem_range.1 hk)
  rw [hdec]
  cases hall : (List.range 8).all (fun i => rawData.getD i 0 == 0xAA) with
  | false =>
    refine ⟨_, rfl, ?_, ?_⟩
    · simp only [Bool.false_eq_true, if_false]
      constructor
      · intro h; simp at h
      · intro h
        rw [hpre, ← hiff, hall] at h
        simp at h
    · simp
  | true =>
    refine ⟨_, rfl, ?_, ?_⟩
    · simp only [if_true, true_iff]
      rw [hpre, ← hiff]
      exact hall
    · simp

/-- On a zeroed block, the rendered bit string parses back to the concatenated
rows. -/
theorem render_parse_zeroed (bitbuffer : bitbuffer_t) (junk : Nat → Nat)
    (hwf : WF bitbuffer) :
    ∃ rawData str, rows_loop bitbuffer (malloc (fun _ => 0) (totalLen bitbuffer), 0)
        = some (rawData, totalLen bitbuffer)
      ∧ bitsToString junk rawData (totalLen bitbuffer) = some str
      ∧ parseBits (cstr str).data = some (concatBits bitbuffer) := by
  obtain ⟨rawData, hloop, hraw, -, hmap⟩ := rows_loop_zeroed bitbuffer hwf
  have hlen : rawData.length = totalLen bitbuffer := by
    rw [hraw, orBits_length, malloc_length]
  have hn : totalLen bitbuffer ≤ 8 * rawData.length := by rw [hlen]; omega
  have hc := cstr_bitsToString junk rawData (totalLen bitbuffer) hn
  rw [bitsToString_eq junk rawData (totalLen bitbuffer) hn] at hc
  simp only [Option.map_some', Option.some.injEq] at hc
  refine ⟨rawData, _, hloop, bitsToString_eq junk rawData (totalLen bitbuffer) hn, ?_⟩
  rw [hc]
  have : (List.range (totalLen bitbuffer)).map (fun y => bitChar (bitAt rawData y))
      = ((List.range (totalLen bitbuffer)).map (bitAt rawData)).map bitChar := by
    rw [List.map_map]; rfl
  rw [this, hmap]
  exact parseBits_map_bitChar _

/-! ## The claims -/

/-- C1 (code as written): the rows loop ORs into a block that `malloc` left
uninitialised.  For the capture of one row holding the eight bits `00000000`,
run on a block that held `0xFF` bytes, the loop ends with `rawDataPointer = 8`
and bit 0 of `rawData` set, although bit 0 of the only row is clear. -/
theorem C1_rows_loop_on_uninitialised_block :
    ∃ rawData,
      rows_loop [⟨[0x00], 8⟩] (malloc (fun _ => 0xFF) (totalLen [⟨[0x00], 8⟩]), 0)
          = some (rawData, 8)
        ∧ bitAt rawData 0 = true
        ∧ rowBitAt [⟨[0x00], 8⟩] 0 = false :=
  ⟨[255, 255, 255, 255, 255, 255, 255, 255], by decide, by decide, by decide⟩

/-- C2: on a capture whose rows hold the bits they declare, the rows loop started
with `rawDataPointer = 0` ends with `rawDataPointer` equal to the sum of the row
bit counts, and `totalLen` computed by the first loop is that same sum. -/
theorem C2_rawDataPointer_eq_sum (bitbuffer : bitbuffer_t) (junk : Nat → Nat)
    (hwf : WF bitbuffer) :
    (∃ rawData, rows_loop bitbuffer (malloc junk (totalLen bitbuffer), 0)
        = some (rawData, (bitbuffer.map Row.bits_per_row).sum))
      ∧ totalLen bitbuffer = (bitbuffer.map Row.bits_per_row).sum := by
  obtain ⟨rawData, h, -⟩ := rows_loop_bits bitbuffer junk hwf
  exact ⟨⟨rawData, by rw [h, totalLen_eq_sum]⟩, totalLen_eq_sum bitbuffer⟩

theorem C2_rawDataPointer_eq_sum_witness :
    WF [⟨[0xA5, 0xC0], 11⟩, ⟨[0xFF], 3⟩]
      ∧ ((∃ rawData,
            rows_loop [⟨[0xA5, 0xC0], 11⟩, ⟨[0xFF], 3⟩]
                (malloc (fun i => 7 * i) (totalLen [⟨[0xA5, 0xC0], 11⟩, ⟨[0xFF], 3⟩]), 0)
              = some (rawData, ([⟨[0xA5, 0xC0], 11⟩, ⟨[0xFF], 3⟩].map Row.bits_per_row).sum))
          ∧ totalLen [⟨[0xA5, 0xC0], 11⟩, ⟨[0xFF], 3⟩]
              = ([⟨[0xA5, 0xC0], 11⟩, ⟨[0xFF], 3⟩].map Row.bits_per_row).sum) :=
  ⟨by decide, C2_rawDataPointer_eq_sum [⟨[0xA5, 0xC0], 11⟩, ⟨[0xFF], 3⟩] (fun i => 7 * i)
    (by decide)⟩

/-- C3 (code as written): the preamble loop compares bytes that still hold what
`malloc` left in them.  A 64-bit capture of zero bits run on a block that held
`0xAA` bytes returns 1 although its first 64 bits are not the preamble, and a
64-bit capture of eight `0xAA` bytes run on a block that held `0xFF` bytes
returns 0 although its first 64 bits are the preamble. -/
theorem C3_preamble_on_uninitialised_block :
    ((unknown1_decode unknown1 [⟨[0, 0, 0, 0, 0, 0, 0, 0], 64⟩] (fun _ _ => 0xAA) []).map
        Outcome.ret = some 1
      ∧ (concatBits [⟨[0, 0, 0, 0, 0, 0, 0, 0], 64⟩]).take 64 ≠ preambleBits)
    ∧ ((unknown1_decode unknown1
          [⟨[0xAA, 0xAA, 0xAA, 0xAA, 0xAA, 0xAA, 0xAA, 0xAA], 64⟩] (fun _ _ => 0xFF) []).map
        Outcome.ret = some 0
      ∧ (concatBits [⟨[0xAA, 0xAA, 0xAA, 0xAA, 0xAA, 0xAA, 0xAA, 0xAA], 64⟩]).take 64
          = preambleBits) :=
  ⟨⟨by decide, by decide⟩, ⟨by decide, by decide⟩⟩

/-- C4 (code as written): the decoder has no length test.  The capture of one row
of 63 bits `1010...101`, run on a zeroed block, fills seven bytes with `0xAA` and
the top seven bits of the eighth; the untouched low bit is 0, the eighth byte
reads `0xAA`, and the decoder returns 1 with `lengthBits = 63`. -/
theorem C4_short_capture_accepted :
    totalLen [⟨[0xAA, 0xAA, 0xAA, 0xAA, 0xAA, 0xAA, 0xAA, 0xAA], 63⟩] = 63
      ∧ (unknown1_decode unknown1
            [⟨[0xAA, 0xAA, 0xAA, 0xAA, 0xAA, 0xAA, 0xAA, 0xAA], 63⟩] (fun _ _ => 0) []).map
          Outcome.ret = some 1
      ∧ ((unknown1_decode unknown1
            [⟨[0xAA, 0xAA, 0xAA, 0xAA, 0xAA, 0xAA, 0xAA, 0xAA], 63⟩] (fun _ _ => 0) []).bind
          (fun o => (o.sink.head?).bind (fun r => data_get r "lengthBits")))
          = some (.DATA_INT 63) :=
  ⟨by decide, by decide, by decide⟩

/-- C5: for a byte sequence `b` and a bit count `n ≤ 8 * b.length`, `bitsToString`
returns a string of exactly `n` characters, each `0` or `1`; character `i` is `1`
exactly when bit `7 - i % 8` of byte `b[i / 8]` is set; and any other byte
sequence with the same first `n` bits gives the same string, so the bits after
the first `n % 8` of a last incomplete byte do not appear. -/
theorem C5_bitsToString_spec (junk : Nat → Nat) (b : List Nat) (n : Nat)
    (hn : n ≤ 8 * b.length) :
    ∃ str, bitsToString junk b n = some str
      ∧ (cstr str).length = n
      ∧ (∀ c ∈ (cstr str).data, c = '0' ∨ c = '1')
      ∧ (∀ i, i < n → (cstr str).data[i]?
          = some (if (b.getD (i / 8) 0).testBit (7 - i % 8) then '1' else '0'))
      ∧ (∀ (junk2 : Nat → Nat) (b2 : List Nat), n ≤ 8 * b2.length →
          (∀ i, i < n → bitAt b2 i = bitAt b i) →
          (bitsToString junk2 b2 n).map cstr = some (cstr str)) := by
  have hc := cstr_bitsToString junk b n hn
  rw [bitsToString_eq junk b n hn] at hc
  simp only [Option.map_some', Option.some.injEq] at hc
  refine ⟨_, bitsToString_eq junk b n hn, ?_, ?_, ?_, ?_⟩
  · rw [hc]; simp [String.length]
  · rw [hc]
    intro c hc2
    obtain ⟨y, -, rfl⟩ := List.mem_map.1 hc2
    cases bitAt b y <;> simp [bitChar]
  · intro i hi
    rw [hc]
    simp [List.getElem?_map, List.getElem?_range hi, bitChar, bitAt]
  · intro junk2 b2 hn2 hsame
    rw [cstr_bitsToString junk2 b2 n hn2, hc]
    congr 2
    apply List.map_congr_left
    intro i hi
    rw [hsame i (List.mem_range.1 hi)]

theorem C5_bitsToString_spec_witness :
    11 ≤ 8 * [0xA5, 0xE0].length
      ∧ ∃ str, bitsToString (fun i => i + 3) [0xA5, 0xE0] 11 = some str
        ∧ (cstr str).length = 11
        ∧ (∀ c ∈ (cstr str).data, c = '0' ∨ c = '1')
        ∧ (∀ i, i < 11 → (cstr str).data[i]?
            = some (if ([0xA5, 0xE0].getD (i / 8) 0).testBit (7 - i % 8) then '1' else '0'))
        ∧ (∀ (junk2 : Nat → Nat) (b2 : List Nat), 11 ≤ 8 * b2.length →
            (∀ i, i < 11 → bitAt b2 i = bitAt [0xA5, 0xE0] i) →
            (bitsToString junk2 b2 11).map cstr = some (cstr str)) :=
  ⟨by decide, C5_bitsToString_spec (fun i => i + 3) [0xA5, 0xE0] 11 (by decide)⟩

/-- C6: for a byte sequence `data` of length `m` and an output buffer with room
for `2 * m + 1` characters, `uint8_to_hex` writes `2 * m` characters and the
terminator and leaves the rest of the buffer alone; the string has exactly
`2 * m` characters, all among `0-9A-F`, and characters `2 * i` and `2 * i + 1`
are the digits of `data[i] / 16` and `data[i] % 16`. -/
theorem C6_uint8_to_hex_spec (data output : List Nat) (sz : Nat)
    (hd : ∀ x ∈ data, x < 256) (hout : 2 * data.length + 1 ≤ output.length) :
    ∃ out, uint8_to_hex data data.length output sz = some out
      ∧ out = (hexString data).map Char.toNat ++ 0 :: output.drop (2 * data.length + 1)
      ∧ (cstr out).length = 2 * data.length
      ∧ (∀ c ∈ (cstr out).data, c ∈ "0123456789ABCDEF".toList)
      ∧ (∀ i, i < data.length →
          (cstr out).data[2 * i]? = some (hexDigit (data.getD i 0 / 16))
            ∧ (cstr out).data[2 * i + 1]? = some (hexDigit (data.getD i 0 % 16))) := by
  have he := uint8_to_hex_eq data data.length output sz (Nat.le_refl _) hd hout
  have hc := cstr_uint8_to_hex data data.length output sz (Nat.le_refl _) hd hout
  rw [he] at hc
  rw [List.take_length] at he hc
  simp only [Option.map_some', Option.some.injEq] at hc
  refine ⟨_, he, rfl, ?_, ?_, ?_⟩
  · rw [hc]
    simp [String.length, hexString_length]
  · rw [hc]
    exact hexString_mem data hd
  · intro i hi
    rw [hc]
    exact hexString_getElem data i hi

theorem C6_uint8_to_hex_spec_witness :
    (∀ x ∈ [0x12, 0xAB], x < 256) ∧ 2 * [0x12, 0xAB].length + 1 ≤ [9, 9, 9, 9, 9, 9].length
      ∧ ∃ out, uint8_to_hex [0x12, 0xAB] [0x12, 0xAB].length [9, 9, 9, 9, 9, 9] 4 = some out
        ∧ out = (hexString [0x12, 0xAB]).map Char.toNat
            ++ 0 :: [9, 9, 9, 9, 9, 9].drop (2 * [0x12, 0xAB].length + 1)
        ∧ (cstr out).length = 2 * [0x12, 0xAB].length
        ∧ (∀ c ∈ (cstr out).data, c ∈ "0123456789ABCDEF".toList)
        ∧ (∀ i, i < [0x12, 0xAB].length →
            (cstr out).data[2 * i]? = some (hexDigit ([0x12, 0xAB].getD i 0 / 16))
              ∧ (cstr out).data[2 * i + 1]? = some (hexDigit ([0x12, 0xAB].getD i 0 % 16))) :=
  ⟨by decide, by decide,
    C6_uint8_to_hex_spec [0x12, 0xAB] [9, 9, 9, 9, 9, 9] 4 (by decide) (by decide)⟩

/-- C7: decoding the string written by `uint8_to_hex`, two digits per byte with
the high nibble first, gives back the byte sequence; hence two byte sequences
rendered to the same string are equal. -/
theorem C7_hex_round_trip (data data2 output output2 : List Nat) (sz sz2 : Nat)
    (hd : ∀ x ∈ data, x < 256) (hout : 2 * data.length + 1 ≤ output.length)
    (hd2 : ∀ x ∈ data2, x < 256) (hout2 : 2 * data2.length + 1 ≤ output2.length) :
    (∃ out, uint8_to_hex data data.length output sz = some out
        ∧ hexDecode (cstr out).data = some data)
      ∧ ((uint8_to_hex data data.length output sz).map cstr
            = (uint8_to_hex data2 data2.length output2 sz2).map cstr
          → data = data2) := by
  have hc := cstr_uint8_to_hex data data.length output sz (Nat.le_refl _) hd hout
  have hc2 := cstr_uint8_to_hex data2 data2.length output2 sz2 (Nat.le_refl _) hd2 hout2
  rw [List.take_length] at hc hc2
  constructor
  · have he := uint8_to_hex_eq data data.length output sz (Nat.le_refl _) hd hout
    rw [he] at hc
    simp only [Option.map_some', Option.some.injEq] at hc
    exact ⟨_, he, by rw [hc]; exact hexDecode_hexString data hd⟩
  · intro h
    rw [hc, hc2] at h
    have hs : hexString data = hexString data2 := congrArg String.data (Option.some.inj h)
    have h1 := hexDecode_hexString data hd
    rw [hs, hexDecode_hexString data2 hd2] at h1
    exact (Option.some.inj h1).symm

theorem C7_hex_round_trip_witness :
    (∀ x ∈ [0x00, 0xFF, 0x3C], x < 256)
      ∧ 2 * [0x00, 0xFF, 0x3C].length + 1 ≤ [1, 2, 3, 4, 5, 6, 7, 8].length
      ∧ (∀ x ∈ [0x7E], x < 256) ∧ 2 * [0x7E].length + 1 ≤ [0, 0, 0].length
      ∧ ((∃ out, uint8_to_hex [0x00, 0xFF, 0x3C] [0x00, 0xFF, 0x3C].length
              [1, 2, 3, 4, 5, 6, 7, 8] 6 = some out
            ∧ hexDecode (cstr out).data = some [0x00, 0xFF, 0x3C])
          ∧ ((uint8_to_hex [0x00, 0xFF, 0x3C] [0x00, 0xFF, 0x3C].length
                  [1, 2, 3, 4, 5, 6, 7, 8] 6).map cstr
                = (uint8_to_hex [0x7E] [0x7E].length [0, 0, 0] 2).map cstr
              → [0x00, 0xFF, 0x3C] = [0x7E])) :=
  ⟨by decide, by decide, by decide, by decide,
    C7_hex_round_trip [0x00, 0xFF, 0x3C] [0x7E] [1, 2, 3, 4, 5, 6, 7, 8] [0, 0, 0] 6 2
      (by decide) (by decide) (by decide) (by decide)⟩

/-- C8 (code as written): the string rendered from the flattened buffer carries
whatever `malloc` left in the block.  For the capture of one row holding the
eight bits `00000000`, run on a block that held `0xFF` bytes, the rendering is
`11111111`; parsed back it gives eight set bits, while the rows hold eight clear
bits. -/
theorem C8_binary_round_trip_on_uninitialised_block :
    ∃ rawData str,
      rows_loop [⟨[0x00], 8⟩] (malloc (fun _ => 0xFF) (totalLen [⟨[0x00], 8⟩]), 0)
          = some (rawData, 8)
        ∧ bitsToString (fun _ => 0) rawData 8 = some str
        ∧ cstr str = "11111111"
        ∧ parseBits (cstr str).data = some (List.replicate 8 true)
        ∧ concatBits [⟨[0x00], 8⟩] = List.replicate 8 false :=
  ⟨[255, 255, 255, 255, 255, 255, 255, 255], [49, 49, 49, 49, 49, 49, 49, 49, 0],
    by decide, by decide, by decide, by decide, by decide⟩

/-- C9: two captures with WF rows, the same row count, the same bit count in
every row and the same first `bits_per_row` bits in every row (so differing at
most in pad bits) give, on the same heap content, the same flattened buffer and
the same decoder result (return value, sink, record); the rows loop succeeds,
and so does the decoder once the capture has eight bits. -/
theorem C9_pad_bits_excluded (decoder : r_device) (c1 c2 : bitbuffer_t)
    (heap : Nat → Nat → Nat) (sink : List data_t)
    (hwf1 : WF c1) (hwf2 : WF c2) (hsame : sameBits c1 c2) :
    rows_loop c1 (malloc (heap 1) (totalLen c1), 0)
        = rows_loop c2 (malloc (heap 1) (totalLen c2), 0)
      ∧ (rows_loop c1 (malloc (heap 1) (totalLen c1), 0)).isSome = true
      ∧ unknown1_decode decoder c1 heap sink = unknown1_decode decoder c2 heap sink
      ∧ (8 ≤ totalLen c1 → (unknown1_decode decoder c1 heap sink).isSome = true) := by
  obtain ⟨e1, e2, e3⟩ := sameBits_facts c1 c2 hsame
  have h1 := rows_loop_eq c1 (malloc (heap 1) (totalLen c1)) 0 hwf1
    (by rw [malloc_length]; omega)
  have h2 := rows_loop_eq c2 (malloc (heap 1) (totalLen c2)) 0 hwf2
    (by rw [malloc_length]; omega)
  refine ⟨?_, ?_, ?_, ?_⟩
  · rw [h1, h2, e1, e2]
  · rw [h1]; rfl
  · unfold unknown1_decode
    simp only [h1, h2]
    simp only [e1, e2, e3]
  · intro ht
    obtain ⟨hexChars, binary, -, -, -, -, hdec⟩ :=
      unknown1_decode_eq decoder c1 heap sink hwf1 ht
    rw [hdec]; rfl

theorem C9_pad_bits_excluded_witness :
    WF [⟨[0xA0], 3⟩, ⟨[0xFF, 0x80], 9⟩] ∧ WF [⟨[0xBF], 3⟩, ⟨[0xFF, 0xC1, 0x55], 9⟩]
      ∧ sameBits [⟨[0xA0], 3⟩, ⟨[0xFF, 0x80], 9⟩] [⟨[0xBF], 3⟩, ⟨[0xFF, 0xC1, 0x55], 9⟩]
      ∧ (rows_loop [⟨[0xA0], 3⟩, ⟨[0xFF, 0x80], 9⟩]
            (malloc ((fun k i => k + i) 1) (totalLen [⟨[0xA0], 3⟩, ⟨[0xFF, 0x80], 9⟩]), 0)
          = rows_loop [⟨[0xBF], 3⟩, ⟨[0xFF, 0xC1, 0x55], 9⟩]
            (malloc ((fun k i => k + i) 1)
              (totalLen [⟨[0xBF], 3⟩, ⟨[0xFF, 0xC1, 0x55], 9⟩]), 0)
        ∧ (rows_loop [⟨[0xA0], 3⟩, ⟨[0xFF, 0x80], 9⟩]
            (malloc ((fun k i => k + i) 1)
              (totalLen [⟨[0xA0], 3⟩, ⟨[0xFF, 0x80], 9⟩]), 0)).isSome = true
        ∧ unknown1_decode unknown1 [⟨[0xA0], 3⟩, ⟨[0xFF, 0x80], 9⟩] (fun k i => k + i) []
          = unknown1_decode unknown1 [⟨[0xBF], 3⟩, ⟨[0xFF, 0xC1, 0x55], 9⟩]
              (fun k i => k + i) []
        ∧ (8 ≤ totalLen [⟨[0xA0], 3⟩, ⟨[0xFF, 0x80], 9⟩] →
            (unknown1_decode unknown1 [⟨[0xA0], 3⟩, ⟨[0xFF, 0x80], 9⟩]
              (fun k i => k + i) []).isSome = true)) :=
  ⟨by decide, by decide,
    ⟨rfl, (by intro j hj; interval_cases j <;> rfl),
      rfl, (by intro j hj; interval_cases j <;> rfl), trivial⟩,
    C9_pad_bits_excluded unknown1 [⟨[0xA0], 3⟩, ⟨[0xFF, 0x80], 9⟩]
      [⟨[0xBF], 3⟩, ⟨[0xFF, 0xC1, 0x55], 9⟩] (fun k i => k + i) [] (by decide) (by decide)
      ⟨rfl, (by intro j hj; interval_cases j <;> rfl),
        rfl, (by intro j hj; interval_cases j <;> rfl), trivial⟩⟩

/-- C10: when the decoder returns 1 on a capture with WF rows, the record handed
to the sink holds under `hex_data` the string written by `uint8_to_hex` over the
first `ceil(totalLen / 8)` bytes of the flattened buffer, of exactly
`2 * ceil(totalLen / 8)` characters, and under `binary_data` the string returned
by `bitsToString` over exactly `totalLen` bits of that buffer, of exactly
`totalLen` characters, where `totalLen` is the sum of the row bit counts. -/
theorem C10_record_renderings (decoder : r_device) (bitbuffer : bitbuffer_t)
    (heap : Nat → Nat → Nat) (sink : List data_t) (o : Outcome)
    (hwf : WF bitbuffer) (h : unknown1_decode decoder bitbuffer heap sink = some o)
    (hret : o.ret = 1) :
    ∃ rawData hexChars binary record,
      totalLen bitbuffer = (bitbuffer.map Row.bits_per_row).sum
      ∧ rows_loop bitbuffer (malloc (heap 1) (totalLen bitbuffer), 0)
          = some (rawData, totalLen bitbuffer)
      ∧ uint8_to_hex rawData ((totalLen bitbuffer + 7) / 8)
          (malloc (heap 4) (totalLen bitbuffer)) ((totalLen bitbuffer + 3) / 4) = some hexChars
      ∧ bitsToString (heap 3) rawData (totalLen bitbuffer) = some binary
      ∧ o.sink = sink ++ [record]
      ∧ data_get record "hex_data" = some (.DATA_STRING (cstr hexChars))
      ∧ cstr hexChars
          = String.mk (hexString (rawData.take ((totalLen bitbuffer + 7) / 8)))
      ∧ (cstr hexChars).length = 2 * ((totalLen bitbuffer + 7) / 8)
      ∧ data_get record "binary_data" = some (.DATA_STRING (cstr binary))
      ∧ cstr binary
          = String.mk ((List.range (totalLen bitbuffer)).map
              (fun y => bitChar (bitAt rawData y)))
      ∧ (cstr binary).length = totalLen bitbuffer := by
  have ht := unknown1_decode_ret_one_len decoder bitbuffer heap sink o hwf h hret
  obtain ⟨hexChars, binary, hbin, hhex, hbinc, hhexc, hdec⟩ :=
    unknown1_decode_eq decoder bitbuffer heap sink hwf ht
  have hloop := rows_loop_eq bitbuffer (malloc (heap 1) (totalLen bitbuffer)) 0 hwf
    (by rw [malloc_length]; omega)
  rw [Nat.zero_add] at hloop
  have hlen : (orBits (malloc (heap 1) (totalLen bitbuffer)) 0 (concatBits bitbuffer)).length
      = totalLen bitbuffer := by
    rw [orBits_length, malloc_length]
  rw [hdec] at h
  cases hall : (List.range 8).all (fun i =>
      (orBits (malloc (heap 1) (totalLen bitbuffer)) 0 (concatBits bitbuffer)).getD i 0
        == 0xAA) with
  | false =>
    rw [hall] at h
    simp only [Bool.false_eq_true, if_false, Option.some.injEq] at h
    rw [← h] at hret
    simp at hret
  | true =>
    rw [hall] at h
    simp only [if_true, Option.some.injEq] at h
    refine ⟨_, hexChars, binary,
      data_make decoder (totalLen bitbuffer) hexChars binary (num_rows bitbuffer),
      totalLen_eq_sum bitbuffer, hloop, hhex, hbin, ?_, data_make_hex_data _ _ _ _ _,
      hhexc, ?_, data_make_binary_data _ _ _ _ _, hbinc, ?_⟩
    · rw [← h]; rfl
    · rw [hhexc]
      simp only [String.length, hexString_length, List.length_take, hlen]
      omega
    · rw [hbinc]
      simp [String.length]

theorem C10_record_renderings_witness :
    WF [⟨[0xAA, 0xAA, 0xAA, 0xAA, 0xAA, 0xAA, 0xAA, 0xAA, 0x12], 72⟩]
      ∧ unknown1_decode unknown1 [⟨[0xAA, 0xAA, 0xAA, 0xAA, 0xAA, 0xAA, 0xAA, 0xAA, 0x12], 72⟩]
          (fun _ _ => 0) []
        = some { ret := 1
                 sink := [data_make unknown1 72 ("AAAAAAAAAAAAAAAA12".toList.map Char.toNat)
                   ("101010101010101010101010101010101010101010101010101010101010101000010010".toList.map
                     Char.toNat) 1]
                 allocated := ["binaryData", "rawData", "binary", "str", "hexChars"]
                 freed := ["binaryData", "rawData", "str"] }
      ∧ (1 : Int) = 1
      ∧ ∃ rawData hexChars binary record,
        totalLen [⟨[0xAA, 0xAA, 0xAA, 0xAA, 0xAA, 0xAA, 0xAA, 0xAA, 0x12], 72⟩]
            = ([⟨[0xAA, 0xAA, 0xAA, 0xAA, 0xAA, 0xAA, 0xAA, 0xAA, 0x12], 72⟩].map
                Row.bits_per_row).sum
        ∧ rows_loop [⟨[0xAA, 0xAA, 0xAA, 0xAA, 0xAA, 0xAA, 0xAA, 0xAA, 0x12], 72⟩]
            (malloc ((fun _ _ => 0) 1)
              (totalLen [⟨[0xAA, 0xAA, 0xAA, 0xAA, 0xAA, 0xAA, 0xAA, 0xAA, 0x12], 72⟩]), 0)
            = some (rawData,
                totalLen [⟨[0xAA, 0xAA, 0xAA, 0xAA, 0xAA, 0xAA, 0xAA, 0xAA, 0x12], 72⟩])
        ∧ uint8_to_hex rawData
            ((totalLen [⟨[0xAA, 0xAA, 0xAA, 0xAA, 0xAA, 0xAA, 0xAA, 0xAA, 0x12], 72⟩] + 7) / 8)
            (malloc ((fun _ _ => 0) 4)
              (totalLen [⟨[0xAA, 0xAA, 0xAA, 0xAA, 0xAA, 0xAA, 0xAA, 0xAA, 0x12], 72⟩]))
            ((totalLen [⟨[0xAA, 0xAA, 0xAA, 0xAA, 0xAA, 0xAA, 0xAA, 0xAA, 0x12], 72⟩] + 3) / 4)
            = some hexChars
        ∧ bitsToString ((fun _ _ => 0) 3) rawData
            (totalLen [⟨[0xAA, 0xAA, 0xAA, 0xAA, 0xAA, 0xAA, 0xAA, 0xAA, 0x12], 72⟩])
            = some binary
        ∧ (Outcome.mk 1
              [data_make unknown1 72 ("AAAAAAAAAAAAAAAA12".toList.map Char.toNat)
                ("101010101010101010101010101010101010101010101010101010101010101000010010".toList.map
                  Char.toNat) 1]
              ["binaryData", "rawData", "binary", "str", "hexChars"]
              ["binaryData", "rawData", "str"]).sink = [] ++ [record]
        ∧ data_get record "hex_data" = some (.DATA_STRING (cstr hexChars))
        ∧ cstr hexChars = String.mk (hexString (rawData.take
            ((totalLen [⟨[0xAA, 0xAA, 0xAA, 0xAA, 0xAA, 0xAA, 0xAA, 0xAA, 0x12], 72⟩] + 7) / 8)))
        ∧ (cstr hexChars).length
            = 2 * ((totalLen [⟨[0xAA, 0xAA, 0xAA, 0xAA, 0xAA, 0xAA, 0xAA, 0xAA, 0x12], 72⟩] + 7)
                / 8)
        ∧ data_get record "binary_data" = some (.DATA_STRING (cstr binary))
        ∧ cstr binary = String.mk
            ((List.range
                (totalLen [⟨[0xAA, 0xAA, 0xAA, 0xAA, 0xAA, 0xAA, 0xAA, 0xAA, 0x12], 72⟩])).map
              (fun y => bitChar (bitAt rawData y)))
        ∧ (cstr binary).length
            = totalLen [⟨[0xAA, 0xAA, 0xAA, 0xAA, 0xAA, 0xAA, 0xAA, 0xAA, 0x12], 72⟩] :=
  ⟨by decide, by decide, rfl,
    C10_record_renderings unknown1
      [⟨[0xAA, 0xAA, 0xAA, 0xAA, 0xAA, 0xAA, 0xAA, 0xAA, 0x12], 72⟩] (fun _ _ => 0) []
      { ret := 1
        sink := [data_make unknown1 72 ("AAAAAAAAAAAAAAAA12".toList.map Char.toNat)
          ("101010101010101010101010101010101010101010101010101010101010101000010010".toList.map
            Char.toNat) 1]
        allocated := ["binaryData", "rawData", "binary", "str", "hexChars"]
        freed := ["binaryData", "rawData", "str"] }
      (by decide) (by decide) rfl⟩

/-! ## Shape of the decoder result -/

/-- A completed run either took the early `return 0`, leaving the sink alone and
freeing nothing, or reached `return 1` after handing one record to the sink. -/
theorem unknown1_decode_cases (decoder : r_device) (bitbuffer : bitbuffer_t)
    (heap : Nat → Nat → Nat) (sink : List data_t) (o : Outcome)
    (h : unknown1_decode decoder bitbuffer heap sink = some o) :
    o = { ret := 0, sink := sink, allocated := ["binaryData", "rawData"], freed := [] }
      ∨ ∃ hexChars binary,
          o = { ret := 1
                sink := sink ++ [data_make decoder (totalLen bitbuffer) hexChars binary
                  (num_rows bitbuffer)]
                allocated := ["binaryData", "rawData", "binary", "str", "hexChars"]
                freed := ["binaryData", "rawData", "str"] } := by
  unfold unknown1_decode at h
  simp only [] at h
  split at h
  · simp at h
  · split at h
    · simp at h
    · left
      exact (Option.some.inj h).symm
    · split at h
      · simp at h
      · split at h
        · simp at h
        · right
          exact ⟨_, _, (Option.some.inj h).symm⟩

theorem data_make_keys (decoder : r_device) (t : Nat) (hexChars binary : List Nat)
    (n : Nat) :
    (data_make decoder t hexChars binary n).map data_field.key = output_fields := rfl

theorem data_make_tags (decoder : r_device) (t : Nat) (hexChars binary : List Nat)
    (n : Nat) :
    (data_make decoder t hexChars binary n).map (fun f => f.value.tag)
      = [.DATA_STRING, .DATA_DOUBLE, .DATA_DOUBLE, .DATA_DOUBLE, .DATA_DOUBLE, .DATA_INT,
          .DATA_STRING, .DATA_STRING, .DATA_INT] := rfl

theorem data_make_fields (decoder : r_device) (t : Nat) (hexChars binary : List Nat)
    (n : Nat) :
    data_get (data_make decoder t hexChars binary n) "model" = some (.DATA_STRING "Unknown1")
      ∧ data_get (data_make decoder t hexChars binary n) "short_width"
          = some (.DATA_DOUBLE decoder.short_width)
      ∧ data_get (data_make decoder t hexChars binary n) "long_width"
          = some (.DATA_DOUBLE decoder.long_width)
      ∧ data_get (data_make decoder t hexChars binary n) "gap_limit"
          = some (.DATA_DOUBLE decoder.gap_limit)
      ∧ data_get (data_make decoder t hexChars binary n) "reset_limit"
          = some (.DATA_DOUBLE decoder.reset_limit)
      ∧ data_get (data_make decoder t hexChars binary n) "lengthBits"
          = some (.DATA_INT t)
      ∧ data_get (data_make decoder t hexChars binary n) "rowCount"
          = some (.DATA_INT n) := by
  refine ⟨?_, ?_, ?_, ?_, ?_, ?_, ?_⟩ <;> simp [data_get, data_make, List.find?]

/-- A set bit of the capture where the preamble has a clear bit makes the decoder
return 0, whatever the heap held: the rows loop never clears a bit. -/
theorem unknown1_decode_reject (decoder : r_device) (bitbuffer : bitbuffer_t)
    (heap : Nat → Nat → Nat) (sink : List data_t) (hwf : WF bitbuffer)
    (ht : 8 ≤ totalLen bitbuffer) (k : Nat) (hk : k < 64)
    (hrow : rowBitAt bitbuffer k = true) (hpre : bitAt (List.replicate 8 0xAA) k = false) :
    unknown1_decode decoder bitbuffer heap sink
      = some { ret := 0, sink := sink, allocated := ["binaryData", "rawData"], freed := [] } := by
  obtain ⟨hexChars, binary, -, -, -, -, hdec⟩ :=
    unknown1_decode_eq decoder bitbuffer heap sink hwf ht
  rw [hdec]
  have hlt : ∀ x ∈ orBits (malloc (heap 1) (totalLen bitbuffer)) 0 (concatBits bitbuffer),
      x < 256 := orBits_lt _ _ _ (malloc_lt _ _)
  have hbit : bitAt (orBits (malloc (heap 1) (totalLen bitbuffer)) 0 (concatBits bitbuffer)) k
      = true := by
    rw [bitAt_orBits _ _ _ _ (by rw [concatBits_length, malloc_length]; omega),
      Nat.sub_zero, concatBits_getD, hrow]
    simp
  cases hall : (List.range 8).all (fun i =>
      (orBits (malloc (heap 1) (totalLen bitbuffer)) 0 (concatBits bitbuffer)).getD i 0
        == 0xAA) with
  | false => simp
  | true =>
    have := (preamble_bytes_iff_bits _ hlt).1 hall k hk
    rw [hbit, hpre] at this
    exact absurd this (by decide)

/-! ## Reads of the preamble loop outside a short block -/

theorem check_preamble_none (buf : List Nat) (n s : Nat) (hs : s ≤ buf.length)
    (hn : buf.length < s + n) :
    check_preamble buf (List.range' s n) = none
      ↔ ∀ i, s ≤ i → i < buf.length → buf.getD i 0 = 0xAA := by
  induction n generalizing s with
  | zero => omega
  | succ n ih =>
    rw [List.range'_succ]
    unfold check_preamble
    by_cases hlt : s < buf.length
    · rw [load_eq_some_of_lt buf s hlt]
      simp only []
      by_cases hx : buf.getD s 0 = 0xAA
      · simp only [hx, ne_eq, not_true_eq_false, if_false]
        rw [ih (s + 1) (by omega) (by omega)]
        constructor
        · intro h i hi hil
          by_cases his : i = s
          · rw [his]; exact hx
          · exact h i (by omega) hil
        · intro h i hi hil
          exact h i (by omega) hil
      · simp only [ne_eq, hx, not_false_eq_true, if_true]
        constructor
        · intro h; simp at h
        · intro h
          exact absurd (h s (Nat.le_refl _) hlt) hx
    · have hnone : load buf s = none := by
        unfold load
        exact List.getElem?_eq_none (by omega)
      rw [hnone]
      simp only [true_iff]
      intro i hi hil
      omega

/-- On a WF capture of fewer than eight bits the decoder reads outside `rawData`
exactly when every byte of the block compares equal to `0xAA`. -/
theorem unknown1_decode_none_iff (decoder : r_device) (bitbuffer : bitbuffer_t)
    (heap : Nat → Nat → Nat) (sink : List data_t) (hwf : WF bitbuffer)
    (ht : totalLen bitbuffer < 8) :
    (check_preamble (orBits (malloc (heap 1) (totalLen bitbuffer)) 0 (concatBits bitbuffer))
        (List.range 8) = none
      ↔ ∀ i, i < totalLen bitbuffer →
          (orBits (malloc (heap 1) (totalLen bitbuffer)) 0 (concatBits bitbuffer)).getD i 0
            = 0xAA)
    ∧ (unknown1_decode decoder bitbuffer heap sink = none
      ↔ check_preamble (orBits (malloc (heap 1) (totalLen bitbuffer)) 0
          (concatBits bitbuffer)) (List.range 8) = none) := by
  have hlen : (orBits (malloc (heap 1) (totalLen bitbuffer)) 0 (concatBits bitbuffer)).length
      = totalLen bitbuffer := by
    rw [orBits_length, malloc_length]
  have hloop := rows_loop_eq bitbuffer (malloc (heap 1) (totalLen bitbuffer)) 0 hwf
    (by rw [malloc_length]; omega)
  constructor
  · rw [List.range_eq_range', check_preamble_none _ 8 0 (Nat.zero_le _) (by rw [hlen]; omega)]
    rw [hlen]
    constructor
    · intro h i hi; exact h i (Nat.zero_le _) hi
    · intro h i _ hi; exact h i hi
  · unfold unknown1_decode
    simp only [hloop]
    cases hc : check_preamble (orBits (malloc (heap 1) (totalLen bitbuffer)) 0
        (concatBits bitbuffer)) (List.range 8) with
    | none => simp
    | some ok =>
      cases ok with
      | false => simp
      | true =>
        have := check_preamble_length _ hc
        rw [hlen] at this
        omega

/-! ## Scenario C and the agreement of the two renderings -/

/-- On a zeroed block, a capture whose row 0 is the eight bits of `0xAA` and whose
row 1 has at least 56 bits and starts with seven bytes `0xAA` is accepted, with
`rowCount = 2` and `lengthBits = 8 + bits_per_row[1]`, whatever follows. -/
theorem scenario_C_zeroed (decoder : r_device) (row1 : Row) (heap : Nat → Nat → Nat)
    (sink : List data_t) (hwf : row1.bits_per_row ≤ 8 * row1.b.length)
    (hn : 56 ≤ row1.bits_per_row)
    (hb : ∀ k, k < 56 → bitAt row1.b k = bitAt (List.replicate 7 0xAA) k)
    (hz : heap 1 = fun _ => 0) :
    ∃ o record, unknown1_decode decoder [⟨[0xAA], 8⟩, row1] heap sink = some o
      ∧ o.ret = 1
      ∧ o.sink = sink ++ [record]
      ∧ data_get record "rowCount" = some (.DATA_INT 2)
      ∧ data_get record "lengthBits" = some (.DATA_INT ((8 + row1.bits_per_row : Nat))) := by
  have hWF : WF [⟨[0xAA], 8⟩, row1] := by
    intro r hr
    simp only [List.mem_cons, List.mem_singleton, List.not_mem_nil, or_false] at hr
    rcases hr with rfl | rfl
    · decide
    · exact hwf
  have htl : totalLen [⟨[0xAA], 8⟩, row1] = 8 + row1.bits_per_row := by
    rw [totalLen_cons, totalLen_cons]; rfl
  obtain ⟨o, ho, hiff, -⟩ := unknown1_decode_zeroed decoder [⟨[0xAA], 8⟩, row1] heap sink hWF
    (by rw [htl]; omega) hz
  have htake : (concatBits [⟨[0xAA], 8⟩, row1]).take 64 = preambleBits := by
    have h0 : rowBits ⟨[0xAA], 8⟩ = [true, false, true, false, true, false, true, false] := by
      decide
    have h1 : (rowBits row1).take 56 = (List.range 56).map (bitAt (List.replicate 7 0xAA)) := by
      unfold rowBits
      rw [← List.map_take, List.take_range, Nat.min_eq_left hn]
      apply List.map_congr_left
      intro k hk
      exact hb k (List.mem_range.1 hk)
    simp only [concatBits, List.append_nil, h0]
    rw [List.take_append_eq_append_take]
    simp only [List.length_cons, List.length_nil]
    rw [h1]
    decide
  have hret : o.ret = 1 := hiff.2 htake
  rcases unknown1_decode_cases decoder _ heap sink o ho with h0 | ⟨hexChars, binary, h1⟩
  · rw [h0] at hret
    simp at hret
  · obtain ⟨-, -, -, -, -, f6, f7⟩ := data_make_fields decoder
      (totalLen [⟨[0xAA], 8⟩, row1]) hexChars binary (num_rows [⟨[0xAA], 8⟩, row1])
    refine ⟨o, _, ho, hret, by rw [h1], ?_, ?_⟩
    · rw [f7]; rfl
    · rw [f6, htl]

theorem hexString_append_list (l1 l2 : List Nat) :
    hexString (l1 ++ l2) = hexString l1 ++ hexString l2 := by
  induction l1 with
  | nil => rfl
  | cons x l ih => simp [hexString, ih]

theorem getD_take (l : List Nat) (m i : Nat) (hi : i < m) :
    (l.take m).getD i 0 = l.getD i 0 := by
  simp [List.getD, List.getElem?_take, hi]

theorem bitAt_take (l : List Nat) (m k : Nat) (hk : k / 8 < m) :
    bitAt (l.take m) k = bitAt l k := by
  unfold bitAt
  rw [getD_take l m _ hk]

theorem take_eight_of_all (buf : List Nat) (hlen : 8 ≤ buf.length)
    (hall : (List.range 8).all (fun i => buf.getD i 0 == 0xAA) = true) :
    buf.take 8 = List.replicate 8 0xAA := by
  rw [List.all_eq_true] at hall
  apply List.ext_getElem?
  intro i
  by_cases hi : i < 8
  · have hb := hall i (List.mem_range.2 hi)
    simp only [beq_iff_eq] at hb
    have hil : i < buf.length := by omega
    have hg : buf.getD i 0 = buf[i] := by
      simp [List.getD, List.getElem?_eq_getElem hil]
    rw [List.getElem?_take, if_pos hi, List.getElem?_replicate, if_pos hi,
      List.getElem?_eq_getElem hil, ← hg, hb]
  · have h1 : (buf.take 8)[i]? = none := by
      apply List.getElem?_eq_none
      simp; omega
    have h2 : (List.replicate 8 0xAA)[i]? = none := by
      apply List.getElem?_eq_none
      simp; omega
    rw [h1, h2]

/-- For every run that returns 1 on a WF capture, decoding `hex_data` and
expanding the bytes to binary digits, cut to `lengthBits` digits, gives
`binary_data`; with at least 64 bits, `binary_data` starts with the 64 digits of
the preamble and `hex_data` with sixteen `A`. -/
theorem renderings_agree (decoder : r_device) (bitbuffer : bitbuffer_t)
    (heap : Nat → Nat → Nat) (sink : List data_t) (o : Outcome)
    (hwf : WF bitbuffer) (h : unknown1_decode decoder bitbuffer heap sink = some o)
    (hret : o.ret = 1) :
    ∃ record hexs bins bytes, o.sink = sink ++ [record]
      ∧ data_get record "hex_data" = some (.DATA_STRING hexs)
      ∧ data_get record "binary_data" = some (.DATA_STRING bins)
      ∧ data_get record "lengthBits" = some (.DATA_INT (totalLen bitbuffer))
      ∧ hexDecode hexs.data = some bytes
      ∧ (expandBits bytes).take (totalLen bitbuffer) = bins.data
      ∧ (64 ≤ totalLen bitbuffer →
          bins.data.take 64
              = "1010101010101010101010101010101010101010101010101010101010101010".toList
            ∧ hexs.data.take 16 = "AAAAAAAAAAAAAAAA".toList) := by
  have ht := unknown1_decode_ret_one_len decoder bitbuffer heap sink o hwf h hret
  obtain ⟨hexChars, binary, -, -, hbinc, hhexc, hdec⟩ :=
    unknown1_decode_eq decoder bitbuffer heap sink hwf ht
  generalize hR : orBits (malloc (heap 1) (totalLen bitbuffer)) 0 (concatBits bitbuffer)
    = rawData at hbinc hhexc hdec
  have hlen : rawData.length = totalLen bitbuffer := by
    rw [← hR, orBits_length, malloc_length]
  have hlt : ∀ x ∈ rawData, x < 256 := by
    rw [← hR]; exact orBits_lt _ _ _ (malloc_lt _ _)
  rw [hdec] at h
  cases hall : (List.range 8).all (fun i => rawData.getD i 0 == 0xAA) with
  | false =>
    rw [hall] at h
    simp only [Bool.false_eq_true, if_false, Option.some.injEq] at h
    rw [← h] at hret
    simp at hret
  | true =>
    rw [hall] at h
    simp only [if_true, Option.some.injEq] at h
    obtain ⟨-, -, -, -, -, f6, -⟩ := data_make_fields decoder (totalLen bitbuffer) hexChars
      binary (num_rows bitbuffer)
    have hm : (totalLen bitbuffer + 7) / 8 ≤ rawData.length := by rw [hlen]; omega
    refine ⟨data_make decoder (totalLen bitbuffer) hexChars binary (num_rows bitbuffer),
      cstr hexChars, cstr binary, rawData.take ((totalLen bitbuffer + 7) / 8),
      by rw [← h]; rfl, data_make_hex_data _ _ _ _ _, data_make_binary_data _ _ _ _ _, f6,
      ?_, ?_, ?_⟩
    · rw [hhexc]
      exact hexDecode_hexString _ (fun x hx => hlt x (List.mem_of_mem_take hx))
    · rw [hbinc]
      unfold expandBits
      rw [← List.map_take, List.take_range, List.length_take, Nat.min_eq_left hm,
        Nat.min_eq_left (by omega)]
      apply List.map_congr_left
      intro k hk
      have hk2 : k < totalLen bitbuffer := List.mem_range.1 hk
      rw [bitAt_take _ _ _ (by omega)]
    · intro h64
      constructor
      · rw [hbinc]
        simp only []
        rw [← List.map_take, List.take_range, Nat.min_eq_left h64]
        have hbits := (preamble_bytes_iff_bits rawData hlt).1 hall
        have : (List.range 64).map (fun y => bitChar (bitAt rawData y))
            = (List.range 64).map (fun y => bitChar (bitAt (List.replicate 8 0xAA) y)) := by
          apply List.map_congr_left
          intro k hk
          rw [hbits k (List.mem_range.1 hk)]
        rw [this]
        decide
      · rw [hhexc]
        simp only []
        have h8 := take_eight_of_all rawData (by omega) hall
        have hsplit : rawData.take ((totalLen bitbuffer + 7) / 8)
            = List.replicate 8 0xAA
              ++ (rawData.take ((totalLen bitbuffer + 7) / 8)).drop 8 := by
          have h1 : (rawData.take ((totalLen bitbuffer + 7) / 8)).take 8 = rawData.take 8 := by
            rw [List.take_take, Nat.min_eq_left (by omega)]
          rw [← h8, ← h1, List.take_append_drop]
        rw [hsplit, hexString_append_list, List.take_append_of_le_length (by decide)]
        decide

/-! ## The claims, continued -/

/-- C11: when the decoder returns 1, the record handed to the sink has
`lengthBits` equal to the sum of the row bit counts, `rowCount` equal to the
number of rows, `model` equal to `Unknown1`, and `short_width`, `long_width`,
`gap_limit`, `reset_limit` equal to the fields of the decoder configuration
passed in, whatever the capture holds. -/
theorem C11_record_bookkeeping (decoder : r_device) (bitbuffer : bitbuffer_t)
    (heap : Nat → Nat → Nat) (sink : List data_t) (o : Outcome)
    (h : unknown1_decode decoder bitbuffer heap sink = some o) (hret : o.ret = 1) :
    ∃ record, o.sink = sink ++ [record]
      ∧ data_get record "lengthBits"
          = some (.DATA_INT ((bitbuffer.map Row.bits_per_row).sum : Nat))
      ∧ data_get record "rowCount" = some (.DATA_INT (bitbuffer.length : Nat))
      ∧ data_get record "model" = some (.DATA_STRING "Unknown1")
      ∧ data_get record "short_width" = some (.DATA_DOUBLE decoder.short_width)
      ∧ data_get record "long_width" = some (.DATA_DOUBLE decoder.long_width)
      ∧ data_get record "gap_limit" = some (.DATA_DOUBLE decoder.gap_limit)
      ∧ data_get record "reset_limit" = some (.DATA_DOUBLE decoder.reset_limit) := by
  rcases unknown1_decode_cases decoder bitbuffer heap sink o h with h0 | ⟨hexChars, binary, h1⟩
  · rw [h0] at hret
    simp at hret
  · obtain ⟨f1, f2, f3, f4, f5, f6, f7⟩ :=
      data_make_fields decoder (totalLen bitbuffer) hexChars binary (num_rows bitbuffer)
    refine ⟨data_make decoder (totalLen bitbuffer) hexChars binary (num_rows bitbuffer),
      by rw [h1], ?_, ?_, f1, f2, f3, f4, f5⟩
    · rw [f6, totalLen_eq_sum]
    · rw [f7]; rfl

theorem C11_record_bookkeeping_witness :
    unknown1_decode ⟨40, 132, 3000, 9000⟩
        [⟨[0xAA], 8⟩, ⟨[0xAA, 0xAA, 0xAA, 0xAA, 0xAA, 0xAA, 0xAA, 0xF0], 60⟩]
        (fun _ _ => 0) []
        = some { ret := 1
                 sink := [data_make ⟨40, 132, 3000, 9000⟩ 68
                   ("AAAAAAAAAAAAAAAAF0".toList.map Char.toNat)
                   ("10101010101010101010101010101010101010101010101010101010101010101111".toList.map
                     Char.toNat) 2]
                 allocated := ["binaryData", "rawData", "binary", "str", "hexChars"]
                 freed := ["binaryData", "rawData", "str"] }
      ∧ (1 : Int) = 1
      ∧ ∃ record,
          [data_make ⟨40, 132, 3000, 9000⟩ 68 ("AAAAAAAAAAAAAAAAF0".toList.map Char.toNat)
              ("10101010101010101010101010101010101010101010101010101010101010101111".toList.map
                Char.toNat) 2] = [] ++ [record]
        ∧ data_get record "lengthBits"
            = some (.DATA_INT
                (([⟨[0xAA], 8⟩, ⟨[0xAA, 0xAA, 0xAA, 0xAA, 0xAA, 0xAA, 0xAA, 0xF0], 60⟩].map
                  Row.bits_per_row).sum : Nat))
        ∧ data_get record "rowCount"
            = some (.DATA_INT
                (([⟨[0xAA], 8⟩, ⟨[0xAA, 0xAA, 0xAA, 0xAA, 0xAA, 0xAA, 0xAA, 0xF0], 60⟩]
                  : bitbuffer_t).length : Nat))
        ∧ data_get record "model" = some (.DATA_STRING "Unknown1")
        ∧ data_get record "short_width" = some (.DATA_DOUBLE 40)
        ∧ data_get record "long_width" = some (.DATA_DOUBLE 132)
        ∧ data_get record "gap_limit" = some (.DATA_DOUBLE 3000)
        ∧ data_get record "reset_limit" = some (.DATA_DOUBLE 9000) :=
  ⟨by decide, rfl,
    C11_record_bookkeeping ⟨40, 132, 3000, 9000⟩
      [⟨[0xAA], 8⟩, ⟨[0xAA, 0xAA, 0xAA, 0xAA, 0xAA, 0xAA, 0xAA, 0xF0], 60⟩] (fun _ _ => 0) []
      { ret := 1
        sink := [data_make ⟨40, 132, 3000, 9000⟩ 68
          ("AAAAAAAAAAAAAAAAF0".toList.map Char.toNat)
          ("10101010101010101010101010101010101010101010101010101010101010101111".toList.map
            Char.toNat) 2]
        allocated := ["binaryData", "rawData", "binary", "str", "hexChars"]
        freed := ["binaryData", "rawData", "str"] }
      (by decide) rfl⟩

/-- A run of the decoder that stays inside its buffers returns 0 with the sink
unchanged, or returns 1 with exactly one record appended to the sink; the only
runs that leave a buffer are on captures of fewer than eight bits (or with a row
shorter than its bit count).  A single row of 16 one-bits returns 0 and leaves
the sink as it was, whatever the heap held. -/
theorem unknown1_decode_two_outcomes (decoder : r_device) (bitbuffer : bitbuffer_t)
    (heap : Nat → Nat → Nat) (sink : List data_t) :
    (match unknown1_decode decoder bitbuffer heap sink with
      | none => totalLen bitbuffer < 8 ∨ ¬ WF bitbuffer
      | some o => (o.ret = 0 ∧ o.sink = sink)
          ∨ (o.ret = 1 ∧ ∃ record, o.sink = sink ++ [record]))
      ∧ ∃ o, unknown1_decode decoder [⟨[0xFF, 0xFF], 16⟩] heap sink = some o
          ∧ o.ret = 0 ∧ o.sink = sink := by
  constructor
  · cases h : unknown1_decode decoder bitbuffer heap sink with
    | none =>
      simp only []
      by_contra hcon
      simp only [not_or, not_lt, not_not] at hcon
      obtain ⟨hexChars, binary, -, -, -, -, hdec⟩ :=
        unknown1_decode_eq decoder bitbuffer heap sink hcon.2 hcon.1
      rw [hdec] at h
      simp at h
    | some o =>
      simp only []
      rcases unknown1_decode_cases decoder bitbuffer heap sink o h with h0 | ⟨hx, bn, h1⟩
      · left; rw [h0]; exact ⟨rfl, rfl⟩
      · right; rw [h1]; exact ⟨rfl, _, rfl⟩
  · exact ⟨_, unknown1_decode_reject decoder [⟨[0xFF, 0xFF], 16⟩] heap sink (by decide)
      (by decide) 1 (by decide) (by decide) (by decide), rfl, rfl⟩

/-- C12 (code as written): the decoder has no length test, so on short captures
the preamble loop reads outside `rawData` and the run has no defined return
value.  For one row of the seven bits `1010101` on a block that held `0xAA`
bytes, all seven bytes of `rawData` read `0xAA` and the loop goes on to
`rawData[7]`, outside the 7-byte block; for the capture without rows it reads
`rawData[0]` in a block of zero bytes.  Neither run returns 0 or 1. -/
theorem C12_run_without_return_value :
    (totalLen [⟨[0xAA], 7⟩] = 7
      ∧ rows_loop [⟨[0xAA], 7⟩] (malloc (fun _ => 0xAA) (totalLen [⟨[0xAA], 7⟩]), 0)
          = some ([0xAA, 0xAA, 0xAA, 0xAA, 0xAA, 0xAA, 0xAA], 7)
      ∧ load [0xAA, 0xAA, 0xAA, 0xAA, 0xAA, 0xAA, 0xAA] 7 = none
      ∧ check_preamble [0xAA, 0xAA, 0xAA, 0xAA, 0xAA, 0xAA, 0xAA] (List.range 8) = none
      ∧ unknown1_decode unknown1 [⟨[0xAA], 7⟩] (fun _ _ => 0xAA) [] = none
      ∧ ¬ ∃ o, unknown1_decode unknown1 [⟨[0xAA], 7⟩] (fun _ _ => 0xAA) [] = some o
          ∧ (o.ret = 0 ∨ o.ret = 1))
    ∧ (unknown1_decode unknown1 [] (fun _ _ => 0) [] = none
      ∧ ¬ ∃ o, unknown1_decode unknown1 [] (fun _ _ => 0) [] = some o
          ∧ (o.ret = 0 ∨ o.ret = 1)) := by
  have h7 : unknown1_decode unknown1 [⟨[0xAA], 7⟩] (fun _ _ => 0xAA) [] = none := by decide
  have h0 : unknown1_decode unknown1 [] (fun _ _ => 0) [] = none := by decide
  refine ⟨⟨by decide, by decide, by decide, by decide, h7, ?_⟩, h0, ?_⟩
  · rintro ⟨o, ho, -⟩
    rw [h7] at ho
    exact absurd ho (by simp)
  · rintro ⟨o, ho, -⟩
    rw [h0] at ho
    exact absurd ho (by simp)

/-- C13: the field names of the record built by `data_make`, in order, are the
array `output_fields`, which is `model, short_width, long_width, gap_limit,
reset_limit, lengthBits, hex_data, binary_data, rowCount` (nine names); `model`,
`hex_data`, `binary_data` are strings, the four timings doubles, `lengthBits` and
`rowCount` integers.  This holds for the record of every run that returns 1. -/
theorem C13_record_schema (decoder : r_device) (bitbuffer : bitbuffer_t)
    (heap : Nat → Nat → Nat) (sink : List data_t) (o : Outcome)
    (h : unknown1_decode decoder bitbuffer heap sink = some o) (hret : o.ret = 1) :
    ∃ record, o.sink = sink ++ [record]
      ∧ record.map data_field.key = output_fields
      ∧ output_fields = ["model", "short_width", "long_width", "gap_limit", "reset_limit",
          "lengthBits", "hex_data", "binary_data", "rowCount"]
      ∧ output_fields.length = 9
      ∧ record.map (fun f => (f.key, f.value.tag))
          = [("model", .DATA_STRING), ("short_width", .DATA_DOUBLE),
              ("long_width", .DATA_DOUBLE), ("gap_limit", .DATA_DOUBLE),
              ("reset_limit", .DATA_DOUBLE), ("lengthBits", .DATA_INT),
              ("hex_data", .DATA_STRING), ("binary_data", .DATA_STRING),
              ("rowCount", .DATA_INT)] := by
  rcases unknown1_decode_cases decoder bitbuffer heap sink o h with h0 | ⟨hexChars, binary, h1⟩
  · rw [h0] at hret
    simp at hret
  · exact ⟨data_make decoder (totalLen bitbuffer) hexChars binary (num_rows bitbuffer),
      by rw [h1], rfl, rfl, rfl, rfl⟩

theorem C13_record_schema_witness :
    unknown1_decode unknown1 [⟨[0xAA, 0xAA, 0xAA, 0xAA, 0xAA, 0xAA, 0xAA, 0xAA], 64⟩]
        (fun _ _ => 0) [[]]
        = some { ret := 1
                 sink := [[], data_make unknown1 64 ("AAAAAAAAAAAAAAAA".toList.map Char.toNat)
                   ("1010101010101010101010101010101010101010101010101010101010101010".toList.map
                     Char.toNat) 1]
                 allocated := ["binaryData", "rawData", "binary", "str", "hexChars"]
                 freed := ["binaryData", "rawData", "str"] }
      ∧ (1 : Int) = 1
      ∧ ∃ record,
          [[], data_make unknown1 64 ("AAAAAAAAAAAAAAAA".toList.map Char.toNat)
              ("1010101010101010101010101010101010101010101010101010101010101010".toList.map
                Char.toNat) 1] = [[]] ++ [record]
        ∧ record.map data_field.key = output_fields
        ∧ output_fields = ["model", "short_width", "long_width", "gap_limit", "reset_limit",
            "lengthBits", "hex_data", "binary_data", "rowCount"]
        ∧ output_fields.length = 9
        ∧ record.map (fun f => (f.key, f.value.tag))
            = [("model", .DATA_STRING), ("short_width", .DATA_DOUBLE),
                ("long_width", .DATA_DOUBLE), ("gap_limit", .DATA_DOUBLE),
                ("reset_limit", .DATA_DOUBLE), ("lengthBits", .DATA_INT),
                ("hex_data", .DATA_STRING), ("binary_data", .DATA_STRING),
                ("rowCount", .DATA_INT)] :=
  ⟨by decide, rfl,
    C13_record_schema unknown1 [⟨[0xAA, 0xAA, 0xAA, 0xAA, 0xAA, 0xAA, 0xAA, 0xAA], 64⟩]
      (fun _ _ => 0) [[]]
      { ret := 1
        sink := [[], data_make unknown1 64 ("AAAAAAAAAAAAAAAA".toList.map Char.toNat)
          ("1010101010101010101010101010101010101010101010101010101010101010".toList.map
            Char.toNat) 1]
        allocated := ["binaryData", "rawData", "binary", "str", "hexChars"]
        freed := ["binaryData", "rawData", "str"] }
      (by decide) rfl⟩

/-- C14 (code as written): for the capture of scenario A (one row of 72 bits,
eight bytes `0xAA` then `0x12`) the result depends on what `malloc` left in
`rawData`.  On a block that held `0xFF` bytes the decoder returns 0 and emits
nothing; on a zeroed block it returns 1 with `lengthBits = 72`,
`hex_data = AAAAAAAAAAAAAAAA12`, the 72 digits of the input as `binary_data`, and
`rowCount = 1`. -/
theorem C14_scenario_A :
    unknown1_decode unknown1
        [⟨[0xAA, 0xAA, 0xAA, 0xAA, 0xAA, 0xAA, 0xAA, 0xAA, 0x12], 72⟩] (fun _ _ => 0xFF) []
        = some { ret := 0, sink := [], allocated := ["binaryData", "rawData"], freed := [] }
      ∧ ∃ o record,
          unknown1_decode unknown1
              [⟨[0xAA, 0xAA, 0xAA, 0xAA, 0xAA, 0xAA, 0xAA, 0xAA, 0x12], 72⟩] (fun _ _ => 0) []
            = some o
          ∧ o.ret = 1
          ∧ o.sink = [record]
          ∧ data_get record "lengthBits" = some (.DATA_INT 72)
          ∧ data_get record "hex_data" = some (.DATA_STRING "AAAAAAAAAAAAAAAA12")
          ∧ data_get record "binary_data" = some (.DATA_STRING
              "101010101010101010101010101010101010101010101010101010101010101000010010")
          ∧ data_get record "rowCount" = some (.DATA_INT 1) :=
  ⟨by decide,
    { ret := 1
      sink := [data_make unknown1 72 ("AAAAAAAAAAAAAAAA12".toList.map Char.toNat)
        ("101010101010101010101010101010101010101010101010101010101010101000010010".toList.map
          Char.toNat) 1]
      allocated := ["binaryData", "rawData", "binary", "str", "hexChars"]
      freed := ["binaryData", "rawData", "str"] },
    data_make unknown1 72 ("AAAAAAAAAAAAAAAA12".toList.map Char.toNat)
      ("101010101010101010101010101010101010101010101010101010101010101000010010".toList.map
        Char.toNat) 1,
    by decide, rfl, rfl, by decide, by decide, by decide, by decide⟩

/-- C15 (code as written): for a capture of scenario C (row 0 the eight bits of
`0xAA`, row 1 seven bytes `0xAA` and the payload byte `0x5C`, 64 bits) the result
depends on what `malloc` left in `rawData`.  On a block that held `0xFF` bytes
the decoder returns 0; on a zeroed block it returns 1 with `rowCount = 2` and
`lengthBits = 72`. -/
theorem C15_scenario_C :
    unknown1_decode unknown1
        [⟨[0xAA], 8⟩, ⟨[0xAA, 0xAA, 0xAA, 0xAA, 0xAA, 0xAA, 0xAA, 0x5C], 64⟩]
        (fun _ _ => 0xFF) []
        = some { ret := 0, sink := [], allocated := ["binaryData", "rawData"], freed := [] }
      ∧ ∃ o record,
          unknown1_decode unknown1
              [⟨[0xAA], 8⟩, ⟨[0xAA, 0xAA, 0xAA, 0xAA, 0xAA, 0xAA, 0xAA, 0x5C], 64⟩]
              (fun _ _ => 0) []
            = some o
          ∧ o.ret = 1
          ∧ o.sink = [record]
          ∧ data_get record "rowCount" = some (.DATA_INT 2)
          ∧ data_get record "lengthBits" = some (.DATA_INT 72) :=
  ⟨by decide,
    { ret := 1
      sink := [data_make unknown1 72 ("AAAAAAAAAAAAAAAA5C".toList.map Char.toNat)
        ("101010101010101010101010101010101010101010101010101010101010101001011100".toList.map
          Char.toNat) 2]
      allocated := ["binaryData", "rawData", "binary", "str", "hexChars"]
      freed := ["binaryData", "rawData", "str"] },
    data_make unknown1 72 ("AAAAAAAAAAAAAAAA5C".toList.map Char.toNat)
      ("101010101010101010101010101010101010101010101010101010101010101001011100".toList.map
        Char.toNat) 2,
    by decide, rfl, rfl, by decide, by decide⟩

/-- C16 (code as written): for a capture without rows, and for one whose rows all
have bit count 0, `totalLen` is 0 and the rows loop ends with an empty buffer and
`rawDataPointer = 0`; the preamble loop then reads `rawData[0]` in a block of
zero bytes, so the run leaves its buffer instead of returning 0. -/
theorem C16_empty_capture (decoder : r_device) (heap : Nat → Nat → Nat)
    (sink : List data_t) :
    (totalLen [] = 0
      ∧ rows_loop [] (malloc (heap 1) (totalLen []), 0) = some ([], 0)
      ∧ load [] 0 = none
      ∧ check_preamble [] (List.range 8) = none
      ∧ unknown1_decode decoder [] heap sink = none)
    ∧ (totalLen [⟨[], 0⟩, ⟨[0x55], 0⟩] = 0
      ∧ rows_loop [⟨[], 0⟩, ⟨[0x55], 0⟩] (malloc (heap 1) (totalLen [⟨[], 0⟩, ⟨[0x55], 0⟩]), 0)
          = some ([], 0)
      ∧ unknown1_decode decoder [⟨[], 0⟩, ⟨[0x55], 0⟩] heap sink = none) :=
  ⟨⟨rfl, rfl, rfl, rfl, rfl⟩, ⟨rfl, rfl, rfl⟩⟩

/-- C17 (code as written): on the early `return 0` (one row of 16 one-bits) the
blocks `binaryData` and `rawData` have been allocated and nothing is freed; on
`return 1` five blocks have been allocated and three are freed (`binaryData`,
`rawData` and the string of `bitsToString`), the first block assigned to `binary`
and `hexChars` are never freed. -/
theorem C17_blocks_not_freed :
    unknown1_decode unknown1 [⟨[0xFF, 0xFF], 16⟩] (fun _ _ => 0) []
        = some { ret := 0, sink := [], allocated := ["binaryData", "rawData"], freed := [] }
      ∧ ∃ o,
          unknown1_decode unknown1
              [⟨[0xAA, 0xAA, 0xAA, 0xAA, 0xAA, 0xAA, 0xAA, 0xAA, 0x12], 72⟩] (fun _ _ => 0) []
            = some o
          ∧ o.ret = 1
          ∧ o.allocated = ["binaryData", "rawData", "binary", "str", "hexChars"]
          ∧ o.freed = ["binaryData", "rawData", "str"]
          ∧ "hexChars" ∉ o.freed
          ∧ "binary" ∉ o.freed :=
  ⟨by decide,
    { ret := 1
      sink := [data_make unknown1 72 ("AAAAAAAAAAAAAAAA12".toList.map Char.toNat)
        ("101010101010101010101010101010101010101010101010101010101010101000010010".toList.map
          Char.toNat) 1]
      allocated := ["binaryData", "rawData", "binary", "str", "hexChars"]
      freed := ["binaryData", "rawData", "str"] },
    by decide, rfl, rfl, rfl, by decide, by decide⟩

/-- C18 (as stated, refuted): for the capture of one row holding eight one-bits,
run on a block that held `0xFF` bytes, the flattened buffer equals the
concatenated rows although the first eight bits of the block were not zero, so
"exactly when the bits are initially zero" fails in the "only when" direction. -/
theorem C18_exactly_when_counterexample :
    rows_loop [⟨[0xFF], 8⟩] (malloc (fun _ => 0xFF) (totalLen [⟨[0xFF], 8⟩]), 0)
        = some ([255, 255, 255, 255, 255, 255, 255, 255], 8)
      ∧ ¬ ((List.range 8).map (bitAt [255, 255, 255, 255, 255, 255, 255, 255])
              = concatBits [⟨[0xFF], 8⟩]
            ↔ (List.range 8).map (bitAt (malloc (fun _ => 0xFF) 8))
              = List.replicate 8 false) := by
  decide

/-- C18 (amended): for every capture with WF rows and every initial content of
`rawData`, after the rows loop bit `k` of `rawData` is the initial bit `k` ORed
with bit `k` of the concatenated rows for every `k` below the total, and every
later bit keeps its initial value.  Hence the flattened stream equals the
concatenation exactly when every bit initially set among the first total bits
lies where the concatenated rows have a set bit; in particular it does when
those bits are initially zero. -/
theorem C18_rows_loop_only_ors (bitbuffer : bitbuffer_t) (junk : Nat → Nat)
    (hwf : WF bitbuffer) :
    ∃ rawData, rows_loop bitbuffer (malloc junk (totalLen bitbuffer), 0)
        = some (rawData, totalLen bitbuffer)
      ∧ totalLen bitbuffer = (bitbuffer.map Row.bits_per_row).sum
      ∧ (∀ k, k < totalLen bitbuffer → bitAt rawData k
          = (bitAt (malloc junk (totalLen bitbuffer)) k || rowBitAt bitbuffer k))
      ∧ (∀ k, totalLen bitbuffer ≤ k → bitAt rawData k
          = bitAt (malloc junk (totalLen bitbuffer)) k)
      ∧ ((∀ k, k < totalLen bitbuffer → bitAt rawData k = rowBitAt bitbuffer k)
          ↔ (∀ k, k < totalLen bitbuffer →
              bitAt (malloc junk (totalLen bitbuffer)) k = true
                → rowBitAt bitbuffer k = true))
      ∧ ((∀ k, k < totalLen bitbuffer → bitAt (malloc junk (totalLen bitbuffer)) k = false)
          → ∀ k, k < totalLen bitbuffer → bitAt rawData k = rowBitAt bitbuffer k) := by
  obtain ⟨rawData, hloop, -, -, hor, hkeep⟩ := rows_loop_bits bitbuffer junk hwf
  refine ⟨rawData, hloop, totalLen_eq_sum bitbuffer, hor, hkeep, ?_, ?_⟩
  · constructor
    · intro h k hk hinit
      have := h k hk
      rw [hor k hk, hinit] at this
      simpa using this.symm
    · intro h k hk
      rw [hor k hk]
      cases hinit : bitAt (malloc junk (totalLen bitbuffer)) k with
      | false => simp
      | true => simp [h k hk hinit]
  · intro h k hk
    rw [hor k hk, h k hk]
    simp

theorem C18_rows_loop_only_ors_witness :
    WF [⟨[0xF0], 4⟩, ⟨[0x0F, 0x80], 9⟩]
      ∧ ∃ rawData,
        rows_loop [⟨[0xF0], 4⟩, ⟨[0x0F, 0x80], 9⟩]
            (malloc (fun i => 0x11 * i) (totalLen [⟨[0xF0], 4⟩, ⟨[0x0F, 0x80], 9⟩]), 0)
          = some (rawData, totalLen [⟨[0xF0], 4⟩, ⟨[0x0F, 0x80], 9⟩])
        ∧ totalLen [⟨[0xF0], 4⟩, ⟨[0x0F, 0x80], 9⟩]
            = ([⟨[0xF0], 4⟩, ⟨[0x0F, 0x80], 9⟩].map Row.bits_per_row).sum
        ∧ (∀ k, k < totalLen [⟨[0xF0], 4⟩, ⟨[0x0F, 0x80], 9⟩] → bitAt rawData k
            = (bitAt (malloc (fun i => 0x11 * i)
                  (totalLen [⟨[0xF0], 4⟩, ⟨[0x0F, 0x80], 9⟩])) k
                || rowBitAt [⟨[0xF0], 4⟩, ⟨[0x0F, 0x80], 9⟩] k))
        ∧ (∀ k, totalLen [⟨[0xF0], 4⟩, ⟨[0x0F, 0x80], 9⟩] ≤ k → bitAt rawData k
            = bitAt (malloc (fun i => 0x11 * i)
                (totalLen [⟨[0xF0], 4⟩, ⟨[0x0F, 0x80], 9⟩])) k)
        ∧ ((∀ k, k < totalLen [⟨[0xF0], 4⟩, ⟨[0x0F, 0x80], 9⟩] →
              bitAt rawData k = rowBitAt [⟨[0xF0], 4⟩, ⟨[0x0F, 0x80], 9⟩] k)
            ↔ (∀ k, k < totalLen [⟨[0xF0], 4⟩, ⟨[0x0F, 0x80], 9⟩] →
                bitAt (malloc (fun i => 0x11 * i)
                    (totalLen [⟨[0xF0], 4⟩, ⟨[0x0F, 0x80], 9⟩])) k = true
                  → rowBitAt [⟨[0xF0], 4⟩, ⟨[0x0F, 0x80], 9⟩] k = true))
        ∧ ((∀ k, k < totalLen [⟨[0xF0], 4⟩, ⟨[0x0F, 0x80], 9⟩] →
              bitAt (malloc (fun i => 0x11 * i)
                (totalLen [⟨[0xF0], 4⟩, ⟨[0x0F, 0x80], 9⟩])) k = false)
            → ∀ k, k < totalLen [⟨[0xF0], 4⟩, ⟨[0x0F, 0x80], 9⟩] →
                bitAt rawData k = rowBitAt [⟨[0xF0], 4⟩, ⟨[0x0F, 0x80], 9⟩] k) :=
  ⟨by decide,
    C18_rows_loop_only_ors [⟨[0xF0], 4⟩, ⟨[0x0F, 0x80], 9⟩] (fun i => 0x11 * i) (by decide)⟩

/-- C19 (as stated, refuted): for the capture of one row holding the two bits
`01` (`totalLen = 2 < 8`), run on blocks that held `0xAA` bytes, `rawData[0]` is
`0xEA`; the preamble loop returns 0 at index 0 and the run ends without indexing
`rawData` at any position from `totalLen` on. -/
theorem C19_short_capture_counterexample :
    totalLen [⟨[0x40], 2⟩] = 2
      ∧ rows_loop [⟨[0x40], 2⟩] (malloc (fun _ => 0xAA) (totalLen [⟨[0x40], 2⟩]), 0)
          = some ([0xEA, 0xAA], 2)
      ∧ load [0xEA, 0xAA] 0 = some 0xEA
      ∧ check_preamble [0xEA, 0xAA] (List.range 8) = some false
      ∧ unknown1_decode unknown1 [⟨[0x40], 2⟩] (fun _ _ => 0xAA) []
          = some { ret := 0, sink := [], allocated := ["binaryData", "rawData"],
                   freed := [] } := by
  decide

/-- C19 (amended): on a capture with WF rows every index of the rows loop lies
inside the `totalLen`-byte block `rawData`.  With `totalLen ≥ 8` the preamble
indices 0..7 lie inside it, the `2 * ceil(totalLen / 8) + 1` characters of
`uint8_to_hex` fit in `hexChars`, and the run completes without leaving a
buffer.  With `totalLen < 8` the preamble loop indexes `rawData` outside the
block exactly when all `totalLen` bytes of the block equal `0xAA` (always when
`totalLen = 0`); otherwise it returns 0 at a mismatching byte inside the
block. -/
theorem C19_buffer_bounds (decoder : r_device) (bitbuffer : bitbuffer_t)
    (heap : Nat → Nat → Nat) (sink : List data_t) (hwf : WF bitbuffer) :
    ∃ rawData, rows_loop bitbuffer (malloc (heap 1) (totalLen bitbuffer), 0)
        = some (rawData, totalLen bitbuffer)
      ∧ rawData.length = totalLen bitbuffer
      ∧ (∀ p, p < totalLen bitbuffer → p / 8 < rawData.length)
      ∧ (8 ≤ totalLen bitbuffer →
          (∀ i, i < 8 → i < rawData.length)
            ∧ 2 * ((totalLen bitbuffer + 7) / 8) + 1
                ≤ (malloc (heap 4) (totalLen bitbuffer)).length
            ∧ ∃ o, unknown1_decode decoder bitbuffer heap sink = some o)
      ∧ (totalLen bitbuffer < 8 →
          (check_preamble rawData (List.range 8) = none
              ↔ ∀ i, i < totalLen bitbuffer → rawData.getD i 0 = 0xAA)
            ∧ (unknown1_decode decoder bitbuffer heap sink = none
              ↔ ∀ i, i < totalLen bitbuffer → rawData.getD i 0 = 0xAA)
            ∧ (unknown1_decode decoder bitbuffer heap sink ≠ none →
                unknown1_decode decoder bitbuffer heap sink
                  = some { ret := 0, sink := sink, allocated := ["binaryData", "rawData"],
                           freed := [] })) := by
  have hloop := rows_loop_eq bitbuffer (malloc (heap 1) (totalLen bitbuffer)) 0 hwf
    (by rw [malloc_length]; omega)
  rw [Nat.zero_add] at hloop
  have hlen : (orBits (malloc (heap 1) (totalLen bitbuffer)) 0 (concatBits bitbuffer)).length
      = totalLen bitbuffer := by
    rw [orBits_length, malloc_length]
  refine ⟨_, hloop, hlen, ?_, ?_, ?_⟩
  · intro p hp
    rw [hlen]; omega
  · intro ht
    obtain ⟨hexChars, binary, -, -, -, -, hdec⟩ :=
      unknown1_decode_eq decoder bitbuffer heap sink hwf ht
    refine ⟨?_, ?_, _, hdec⟩
    · intro i hi; rw [hlen]; omega
    · rw [malloc_length]; omega
  · intro ht
    obtain ⟨h1, h2⟩ := unknown1_decode_none_iff decoder bitbuffer heap sink hwf ht
    refine ⟨h1, h2.trans h1, ?_⟩
    intro hne
    cases hd : unknown1_decode decoder bitbuffer heap sink with
    | none => exact absurd hd hne
    | some o =>
      rcases unknown1_decode_cases decoder bitbuffer heap sink o hd with h0 | ⟨hx, bn, h3⟩
      · rw [h0]
      · have := unknown1_decode_ret_one_len decoder bitbuffer heap sink o hwf hd
          (by rw [h3])
        omega

theorem C19_buffer_bounds_witness :
    WF [⟨[0xAA], 7⟩]
      ∧ ∃ rawData,
        rows_loop [⟨[0xAA], 7⟩] (malloc ((fun _ _ => 0xAA) 1) (totalLen [⟨[0xAA], 7⟩]), 0)
          = some (rawData, totalLen [⟨[0xAA], 7⟩])
        ∧ rawData.length = totalLen [⟨[0xAA], 7⟩]
        ∧ (∀ p, p < totalLen [⟨[0xAA], 7⟩] → p / 8 < rawData.length)
        ∧ (8 ≤ totalLen [⟨[0xAA], 7⟩] →
            (∀ i, i < 8 → i < rawData.length)
              ∧ 2 * ((totalLen [⟨[0xAA], 7⟩] + 7) / 8) + 1
                  ≤ (malloc ((fun _ _ => 0xAA) 4) (totalLen [⟨[0xAA], 7⟩])).length
              ∧ ∃ o, unknown1_decode unknown1 [⟨[0xAA], 7⟩] (fun _ _ => 0xAA) [] = some o)
        ∧ (totalLen [⟨[0xAA], 7⟩] < 8 →
            (check_preamble rawData (List.range 8) = none
                ↔ ∀ i, i < totalLen [⟨[0xAA], 7⟩] → rawData.getD i 0 = 0xAA)
              ∧ (unknown1_decode unknown1 [⟨[0xAA], 7⟩] (fun _ _ => 0xAA) [] = none
                ↔ ∀ i, i < totalLen [⟨[0xAA], 7⟩] → rawData.getD i 0 = 0xAA)
              ∧ (unknown1_decode unknown1 [⟨[0xAA], 7⟩] (fun _ _ => 0xAA) [] ≠ none →
                  unknown1_decode unknown1 [⟨[0xAA], 7⟩] (fun _ _ => 0xAA) []
                    = some { ret := 0, sink := [], allocated := ["binaryData", "rawData"],
                             freed := [] })) :=
  ⟨by decide, C19_buffer_bounds unknown1 [⟨[0xAA], 7⟩] (fun _ _ => 0xAA) [] (by decide)⟩

/-- C20 (code as written): the decoder accepts captures of fewer than 64 bits.
One row of 63 bits `1010...101` on a zeroed block returns 1 with a `binary_data`
of 63 digits, which cannot start with the 64 digits of the preamble; one row of
the eight bits of `0xAA` on blocks that held `0xAA` bytes returns 1 with
`hex_data = AA`, which does not start with sixteen `A`. -/
theorem C20_renderings_of_short_captures :
    (∃ o record,
        unknown1_decode unknown1
            [⟨[0xAA, 0xAA, 0xAA, 0xAA, 0xAA, 0xAA, 0xAA, 0xAA], 63⟩] (fun _ _ => 0) []
          = some o
        ∧ o.ret = 1
        ∧ o.sink = [record]
        ∧ data_get record "lengthBits" = some (.DATA_INT 63)
        ∧ data_get record "binary_data" = some (.DATA_STRING
            "101010101010101010101010101010101010101010101010101010101010101")
        ∧ "101010101010101010101010101010101010101010101010101010101010101".toList.take 64
            ≠ "1010101010101010101010101010101010101010101010101010101010101010".toList)
      ∧ ∃ o record,
          unknown1_decode unknown1 [⟨[0xAA], 8⟩] (fun _ _ => 0xAA) [] = some o
          ∧ o.ret = 1
          ∧ o.sink = [record]
          ∧ data_get record "lengthBits" = some (.DATA_INT 8)
          ∧ data_get record "hex_data" = some (.DATA_STRING "AA")
          ∧ data_get record "binary_data" = some (.DATA_STRING "10101010")
          ∧ "AA".toList.take 16 ≠ "AAAAAAAAAAAAAAAA".toList
          ∧ "10101010".toList.take 64
              ≠ "1010101010101010101010101010101010101010101010101010101010101010".toList :=
  ⟨⟨{ ret := 1
      sink := [data_make unknown1 63 ("AAAAAAAAAAAAAAAA".toList.map Char.toNat)
        ("101010101010101010101010101010101010101010101010101010101010101".toList.map
          Char.toNat) 1]
      allocated := ["binaryData", "rawData", "binary", "str", "hexChars"]
      freed := ["binaryData", "rawData", "str"] },
    data_make unknown1 63 ("AAAAAAAAAAAAAAAA".toList.map Char.toNat)
      ("101010101010101010101010101010101010101010101010101010101010101".toList.map
        Char.toNat) 1,
    by decide, rfl, rfl, by decide, by decide, by decide⟩,
   ⟨{ ret := 1
      sink := [data_make unknown1 8 ("AA".toList.map Char.toNat)
        ("10101010".toList.map Char.toNat) 1]
      allocated := ["binaryData", "rawData", "binary", "str", "hexChars"]
      freed := ["binaryData", "rawData", "str"] },
    data_make unknown1 8 ("AA".toList.map Char.toNat) ("10101010".toList.map Char.toNat) 1,
    by decide, rfl, rfl, by decide, by decide, by decide, by decide, by decide⟩⟩

end Unknown1
